import Mathlib

/-!
A shallow embedding of the GoData embedded key-value store (main.go) and its
write-ahead log (wal.go), together with proofs about the embedded code.

Modelling conventions:
* Go byte slices are `List Nat` whose elements are kept below 256 by every writer;
  Go strings are byte strings and are likewise modelled as `List Nat`.
* `binary.LittleEndian` accesses become `getU16/putU16`, `getU32/putU32`, `getU64/putU64`.
* Go maps (`pageIndex`, the page cache `pages`) become association lists with
  overwrite-on-insert semantics.
* The backing file is modelled structurally as its 64-byte header plus the dense
  list of 4096-byte pages that follow it (all file accesses in the source are
  header-aligned or page-aligned, via `pageOffset`).
* Methods that mutate their receiver return the updated value explicitly; methods
  returning `error` return `Except String _` carrying the source's message, and the
  updated state is returned alongside so that failure paths keep their side effects,
  exactly as the mutations on the Go receiver persist when an error is returned.
* The two `for` loops without structurally decreasing bounds (`scanForLastLSN` and
  `ReadAll` in wal.go) take an explicit fuel argument; `ReadAll` is run with fuel
  larger than the file length, which is enough whenever the loop terminates.
-/

namespace GoData

/-- Reads the sub-slice `data[off : off+len]` (Go slicing clamps at the end). -/
def readBytes (data : List Nat) (off len : Nat) : List Nat :=
  (data.drop off).take len

/-- Overwrites `data[off : off+src.length]` with `src`, as Go `copy` into a slice of
`data` does when the region lies inside `data`. -/
def writeBytes (data : List Nat) (off : Nat) (src : List Nat) : List Nat :=
  data.take off ++ src ++ data.drop (off + src.length)

/-- `binary.LittleEndian.PutUint16`: the two little-endian bytes of `n % 2^16`. -/
def putU16 (n : Nat) : List Nat := [n % 256, n / 256 % 256]

/-- `binary.LittleEndian.Uint16` read at offset `off`. -/
def getU16 (data : List Nat) (off : Nat) : Nat :=
  data.getD off 0 + 256 * data.getD (off + 1) 0

/-- `binary.LittleEndian.PutUint32`: the four little-endian bytes of `n % 2^32`. -/
def putU32 (n : Nat) : List Nat :=
  [n % 256, n / 256 % 256, n / 65536 % 256, n / 16777216 % 256]

/-- `binary.LittleEndian.Uint32` read at offset `off`. -/
def getU32 (data : List Nat) (off : Nat) : Nat :=
  data.getD off 0 + 256 * data.getD (off + 1) 0 + 65536 * data.getD (off + 2) 0 +
    16777216 * data.getD (off + 3) 0

/-- `binary.LittleEndian.PutUint64`: the eight little-endian bytes of `n % 2^64`. -/
def putU64 (n : Nat) : List Nat := putU32 (n % 4294967296) ++ putU32 (n / 4294967296 % 4294967296)

/-- `binary.LittleEndian.Uint64` read at offset `off`. -/
def getU64 (data : List Nat) (off : Nat) : Nat :=
  getU32 data off + 4294967296 * getU32 data (off + 4)

/-- One bit step of the reflected CRC-32 computation with polynomial `0xEDB88320`. -/
def crc32Round (c : Nat) : Nat :=
  if c % 2 = 1 then Nat.xor (c / 2) 0xEDB88320 else c / 2

/-- Folds one byte into a CRC-32 accumulator (eight reflected bit steps). -/
def crc32Byte (c b : Nat) : Nat := crc32Round^[8] (Nat.xor c b)

/-- `crc32.ChecksumIEEE`: reflected CRC-32, initial value and final xor `0xFFFFFFFF`. -/
def crc32 (data : List Nat) : Nat :=
  Nat.xor (data.foldl crc32Byte 0xFFFFFFFF) 0xFFFFFFFF

/-! ### Constants (main.go) -/

abbrev PageSize : Nat := 4096
abbrev HeaderSize : Nat := 64
abbrev MagicNumber : Nat := 0x4D594442
abbrev Version : Nat := 1

/-! ### Record codec (main.go `serializeRecord` / `deserializeRecord`) -/

/-- `serializeRecord`: 2-byte key length, 2-byte value length (both truncated to
`uint16`), then the key bytes and the value bytes. -/
def serializeRecord (key value : List Nat) : List Nat :=
  putU16 key.length ++ putU16 value.length ++ key ++ value

/-- `deserializeRecord`: reads one record at `offset`, returning the key, the value
and the total bytes consumed, or `none` on either bounds-check failure. -/
def deserializeRecord (data : List Nat) (offset : Nat) :
    Option (List Nat × List Nat × Nat) :=
  if offset + 4 > data.length then none
  else
    let keyLen := getU16 data offset
    let valueLen := getU16 data (offset + 2)
    let totalLen := 4 + keyLen + valueLen
    if offset + totalLen > data.length then none
    else
      some (readBytes data (offset + 4) keyLen,
            readBytes data (offset + 4 + keyLen) valueLen, totalLen)

/-! ### Pages (main.go `Page` and its methods) -/

structure Page where
  ID : Nat
  Data : List Nat
  IsDirty : Bool
  RecordCount : Nat
deriving DecidableEq

/-- The record-skipping loop at the start of `Page.addRecord`: advances past `count`
records starting at `offset`, failing like the source when a 4-byte record header
would not fit before the end of the page. -/
def skipRecords (data : List Nat) (offset : Nat) : Nat → Option Nat
  | 0 => some offset
  | n + 1 =>
    if offset + 4 > data.length then none
    else skipRecords data (offset + 4 + getU16 data offset + getU16 data (offset + 2)) n

/-- `Page.addRecord`: serializes the record, finds the end of the existing records,
checks capacity and appends. -/
def Page.addRecord (p : Page) (key value : List Nat) : Except String Page :=
  let record := serializeRecord key value
  match skipRecords p.Data 2 p.RecordCount with
  | none => .error "corrupted page: invalid record offset"
  | some offset =>
    if offset + record.length > p.Data.length then
      .error "page full: not enough space for record"
    else
      .ok { p with Data := writeBytes p.Data offset record,
                   RecordCount := p.RecordCount + 1, IsDirty := true }

/-- The scanning loop of `Page.findRecord`. -/
def findRecordAux (data key : List Nat) (offset : Nat) : Nat → Option (List Nat)
  | 0 => none
  | n + 1 =>
    match deserializeRecord data offset with
    | none => none
    | some (recordKey, recordValue, bytesRead) =>
      if recordKey = key then some recordValue
      else findRecordAux data key (offset + bytesRead) n

/-- `Page.findRecord`: linear scan over the page's records for `key`. -/
def Page.findRecord (p : Page) (key : List Nat) : Option (List Nat) :=
  findRecordAux p.Data key 2 p.RecordCount

/-- The scanning loop of `Page.deleteRecord`; on a key match it returns the page
data after the block move that closes the gap. -/
def deleteRecordAux (data key : List Nat) (offset : Nat) : Nat → Option (List Nat)
  | 0 => none
  | n + 1 =>
    match deserializeRecord data offset with
    | none => none
    | some (recordKey, _, bytesRead) =>
      if recordKey = key then
        let nextOffset := offset + bytesRead
        let remainingBytes := data.length - nextOffset
        some (writeBytes data offset (readBytes data nextOffset remainingBytes))
      else deleteRecordAux data key (offset + bytesRead) n

/-- `Page.deleteRecord`: removes the first record matching `key`, shifting later
bytes left; returns the (possibly updated) page and whether a record was removed. -/
def Page.deleteRecord (p : Page) (key : List Nat) : Page × Bool :=
  match deleteRecordAux p.Data key 2 p.RecordCount with
  | some newData =>
    ({ p with Data := newData, RecordCount := p.RecordCount - 1, IsDirty := true }, true)
  | none => (p, false)

/-- The free-space estimation loop inside `Storage.Put` (case 2): like
`skipRecords` but silently stopping at a truncated header instead of failing. -/
def estimateUsed (data : List Nat) (usedSpace : Nat) : Nat → Nat
  | 0 => usedSpace
  | n + 1 =>
    if usedSpace + 4 > data.length then usedSpace
    else estimateUsed data (usedSpace + 4 + getU16 data usedSpace + getU16 data (usedSpace + 2)) n

/-! ### Association-list models of the two Go maps -/

/-- Lookup in the key-to-page-id map `pageIndex`. -/
def indexLookup : List (List Nat × Nat) → List Nat → Option Nat
  | [], _ => none
  | (k, v) :: rest, key => if k = key then some v else indexLookup rest key

/-- Map assignment `pageIndex[key] = v` (overwrite or append). -/
def indexInsert : List (List Nat × Nat) → List Nat → Nat → List (List Nat × Nat)
  | [], key, v => [(key, v)]
  | (k, w) :: rest, key, v =>
    if k = key then (key, v) :: rest else (k, w) :: indexInsert rest key v

/-- Go `delete(pageIndex, key)`. -/
def indexErase : List (List Nat × Nat) → List Nat → List (List Nat × Nat)
  | [], _ => []
  | (k, w) :: rest, key => if k = key then rest else (k, w) :: indexErase rest key

/-- Lookup in the page cache `pages`. -/
def cacheLookup : List (Nat × Page) → Nat → Option Page
  | [], _ => none
  | (k, p) :: rest, id => if k = id then some p else cacheLookup rest id

/-- Map assignment `pages[id] = p` (overwrite or append). -/
def cacheInsert : List (Nat × Page) → Nat → Page → List (Nat × Page)
  | [], id, p => [(id, p)]
  | (k, q) :: rest, id, p =>
    if k = id then (id, p) :: rest else (k, q) :: cacheInsert rest id p

/-! ### The backing file -/

/-- The database file: its 64-byte header region followed by the pages that are
physically present after `HeaderSize` bytes (page `i` at byte `64 + i*4096`). -/
structure DbFile where
  header : List Nat
  pages : List (List Nat)
deriving DecidableEq

/-- `file.WriteAt(data, pageOffset(id))`: overwrites page `id`; a write past the
current end of the file zero-fills the gap, as a sparse file write does. -/
def diskWritePage (pages : List (List Nat)) (id : Nat) (data : List Nat) :
    List (List Nat) :=
  if id < pages.length then pages.set id data
  else pages ++ List.replicate (id - pages.length) (List.replicate PageSize 0) ++ [data]

/-- `Storage.writeHeader`: a zeroed 64-byte buffer with the five `uint32` fields
written little-endian at offsets 0, 4, 8, 12, 16. -/
def encodeHeader (totalPages nextPageID : Nat) : List Nat :=
  writeBytes (List.replicate HeaderSize 0) 0
    (putU32 MagicNumber ++ putU32 Version ++ putU32 PageSize ++
      putU32 totalPages ++ putU32 nextPageID)

/-! ### The storage manager (main.go `Storage`) -/

structure Storage where
  disk : DbFile
  pageIndex : List (List Nat × Nat)
  pages : List (Nat × Page)
  nextPageID : Nat
  totalPages : Nat
deriving DecidableEq

/-- `Storage.loadPage`: cache hit, or a read of the page's 4096 bytes from disk
(an error when the file does not extend that far), parsing the 2-byte record
count and caching the clean page. -/
def Storage.loadPage (s : Storage) (pageID : Nat) : Storage × Except String Page :=
  match cacheLookup s.pages pageID with
  | some page => (s, .ok page)
  | none =>
    match s.disk.pages.get? pageID with
    | none => (s, .error "failed to read page")
    | some pageData =>
      let page : Page :=
        { ID := pageID, Data := pageData, IsDirty := false,
          RecordCount := if 2 ≤ pageData.length then getU16 pageData 0 else 0 }
      ({ s with pages := cacheInsert s.pages pageID page }, .ok page)

/-- `Storage.allocateNewPage`: a fresh dirty page with the next id, zeroed data and
record count 0, cached; increments `nextPageID` and `totalPages` together. -/
def Storage.allocateNewPage (s : Storage) : Storage × Page :=
  let page : Page :=
    { ID := s.nextPageID, IsDirty := true, RecordCount := 0,
      Data := writeBytes (List.replicate PageSize 0) 0 (putU16 0) }
  ({ s with pages := cacheInsert s.pages page.ID page,
            nextPageID := s.nextPageID + 1, totalPages := s.totalPages + 1 }, page)

/-- `Storage.writePage`: refreshes the record-count bytes at the front of the page
data, writes the 4096 bytes to disk at the page's offset, and marks it clean. -/
def Storage.writePage (s : Storage) (page : Page) : Storage :=
  let written : List Nat := writeBytes page.Data 0 (putU16 page.RecordCount)
  let flushed : Page := { page with Data := written, IsDirty := false }
  { s with disk := { s.disk with pages := diskWritePage s.disk.pages page.ID written },
           pages := cacheInsert s.pages page.ID flushed }

/-- The first-fit page search inside `Storage.Put` (case 2): walks page ids upward,
skipping pages that fail to load, and returns the first page whose estimated used
space leaves room for `recordSize` more bytes. -/
def Storage.searchPages (s : Storage) (recordSize : Nat) :
    Nat → Nat → Storage × Option Page
  | _, 0 => (s, none)
  | pageID, n + 1 =>
    match s.loadPage pageID with
    | (s1, .error _) => s1.searchPages recordSize (pageID + 1) n
    | (s1, .ok page) =>
      let usedSpace := estimateUsed page.Data 2 page.RecordCount
      if usedSpace + recordSize ≤ page.Data.length then (s1, some page)
      else s1.searchPages recordSize (pageID + 1) n

/-- `Storage.Put`: update path deletes the old record from the key's page and then
appends the new one to that same page; new-key path first-fit searches all pages,
allocating a new page when none has room, then appends and updates the index. -/
def Storage.Put (s : Storage) (key value : List Nat) : Storage × Except String Unit :=
  match indexLookup s.pageIndex key with
  | some pageID =>
    match s.loadPage pageID with
    | (s1, .error e) => (s1, .error e)
    | (s1, .ok page) =>
      let (page1, _) := page.deleteRecord key
      let s2 := { s1 with pages := cacheInsert s1.pages pageID page1 }
      match page1.addRecord key value with
      | .error e => (s2, .error e)
      | .ok page2 => ({ s2 with pages := cacheInsert s2.pages pageID page2 }, .ok ())
  | none =>
    let recordSize := 4 + key.length + value.length
    let (s1, found) := s.searchPages recordSize 0 s.totalPages
    let (s2, targetPage) :=
      match found with
      | some page => (s1, page)
      | none => s1.allocateNewPage
    match targetPage.addRecord key value with
    | .error e => (s2, .error e)
    | .ok page2 =>
      ({ s2 with pages := cacheInsert s2.pages targetPage.ID page2,
                 pageIndex := indexInsert s2.pageIndex key targetPage.ID }, .ok ())

/-- `Storage.Get`: index lookup, page load, then an in-page scan for the key. -/
def Storage.Get (s : Storage) (key : List Nat) : Storage × Except String (List Nat) :=
  match indexLookup s.pageIndex key with
  | none => (s, .error "key not found")
  | some pageID =>
    match s.loadPage pageID with
    | (s1, .error e) => (s1, .error e)
    | (s1, .ok page) =>
      match page.findRecord key with
      | none => (s1, .error "key not found in expected page")
      | some value => (s1, .ok value)

/-- `Storage.Delete`: index lookup, page load, in-page record removal, then removal
of the key from the index. -/
def Storage.Delete (s : Storage) (key : List Nat) : Storage × Except String Unit :=
  match indexLookup s.pageIndex key with
  | none => (s, .error "key not found")
  | some pageID =>
    match s.loadPage pageID with
    | (s1, .error e) => (s1, .error e)
    | (s1, .ok page) =>
      match page.deleteRecord key with
      | (_, false) => (s1, .error "key not found in expected page")
      | (page1, true) =>
        ({ s1 with pages := cacheInsert s1.pages pageID page1,
                   pageIndex := indexErase s1.pageIndex key }, .ok ())

/-- The flush loop of `Storage.Close` over a snapshot of the page cache. -/
def Storage.flushLoop (s : Storage) : List (Nat × Page) → Storage
  | [] => s
  | (_, page) :: rest =>
    if page.IsDirty then (s.writePage page).flushLoop rest else s.flushLoop rest

/-- `Storage.updateHeader`: rewrites the file header from the current counters. -/
def Storage.updateHeader (s : Storage) : Storage :=
  { s with disk := { s.disk with header := encodeHeader s.totalPages s.nextPageID } }

/-- `Storage.Close`: flushes every dirty cached page, then writes the header. -/
def Storage.Close (s : Storage) : Storage :=
  (s.flushLoop s.pages).updateHeader

/-- `NewStorage` on an empty file (`initializeNewFile`): zero counters and a fresh
header on disk. -/
def Storage.init : Storage :=
  { disk := { header := encodeHeader 0 0, pages := [] },
    pageIndex := [], pages := [], nextPageID := 0, totalPages := 0 }

/-- The inner record scan of `Storage.buildIndex` over one page. Note the source
bug kept here: the value length is read from the same two bytes as the key length
(`page.Data[offset:offset+2]` twice) instead of from `offset+2`. -/
def buildIndexPage (data : List Nat) (pageID : Nat) (idx : List (List Nat × Nat))
    (offset : Nat) : Nat → List (List Nat × Nat)
  | 0 => idx
  | n + 1 =>
    if offset + 4 > data.length then idx
    else
      let keyLen := getU16 data offset
      let valueLen := getU16 data offset
      if offset + 4 + keyLen + valueLen > data.length then idx
      else
        let key := readBytes data (offset + 4) keyLen
        buildIndexPage data pageID (indexInsert idx key pageID)
          (offset + 4 + keyLen + valueLen) n

/-- The page loop of `Storage.buildIndex`. -/
def Storage.buildIndexLoop (s : Storage) (pageID : Nat) : Nat → Except String Storage
  | 0 => .ok s
  | n + 1 =>
    match s.loadPage pageID with
    | (_, .error _) => .error "failed to load page during index build"
    | (s1, .ok page) =>
      let idx := buildIndexPage page.Data pageID s1.pageIndex 2 page.RecordCount
      Storage.buildIndexLoop { s1 with pageIndex := idx } (pageID + 1) n

/-- `Storage.buildIndex`: scans pages `0 .. totalPages-1` to rebuild `pageIndex`. -/
def Storage.buildIndex (s : Storage) : Except String Storage :=
  s.buildIndexLoop 0 s.totalPages

/-- `NewStorage` on a non-empty file: `loadHeader` (read 64 bytes, decode and
validate the five fields) followed by `buildIndex`. -/
def NewStorageExisting (disk : DbFile) : Except String Storage :=
  if disk.header.length < HeaderSize then .error "failed to read header"
  else if getU32 disk.header 0 ≠ MagicNumber then
    .error "invalid file format: magic number mismatch"
  else if getU32 disk.header 4 ≠ Version then .error "incorrect version"
  else if getU32 disk.header 8 ≠ PageSize then .error "page size mismatch"
  else
    Storage.buildIndex
      { disk := disk, pageIndex := [], pages := [],
        nextPageID := getU32 disk.header 16, totalPages := getU32 disk.header 12 }

/-! ### Single-session operation sequences -/

/-- One public store operation. -/
inductive Op where
  | put (key value : List Nat)
  | get (key : List Nat)
  | del (key : List Nat)
  | close

/-- The state reached after one operation (results discarded). -/
def Storage.step (s : Storage) : Op → Storage
  | .put k v => (s.Put k v).1
  | .get k => (s.Get k).1
  | .del k => (s.Delete k).1
  | .close => s.Close

/-- The state reached after a sequence of operations. -/
def Storage.run (s : Storage) (ops : List Op) : Storage := ops.foldl Storage.step s

/-- States reachable in one open session that started from a fresh (empty) file. -/
def Reachable (s : Storage) : Prop := ∃ ops : List Op, s = Storage.init.run ops

/-! ### The write-ahead log (wal.go) -/

abbrev LogTypePut : Nat := 1
abbrev LogTypeDelete : Nat := 2

structure LogEntry where
  LSN : Nat
  EntrySize : Nat
  /-- the Go field is named `Type`, a reserved word here -/
  Typ : Nat
  KeyLen : Nat
  ValueLen : Nat
  Key : List Nat
  Value : List Nat
  Checksum : Nat
deriving DecidableEq

/-- `LogEntry.Serialize`. Note, as in the source: a CRC-32 over all preceding bytes
is computed into a local variable, but the bytes written into the trailing 4-byte
checksum slot come from the entry's `Checksum` field, not from that computation. -/
def LogEntry.Serialize (e : LogEntry) : List Nat :=
  let body := putU64 e.LSN ++ putU32 e.EntrySize ++ [e.Typ % 256] ++
    putU16 e.KeyLen ++ putU16 e.ValueLen ++ e.Key ++ e.Value
  let _checksum := crc32 body
  body ++ putU32 e.Checksum

/-- wal.go `Deserialize`: decodes one entry from `data`, with the source's bounds
checks (minimum 21-byte header; `data` no shorter than the declared entry size). -/
def Deserialize (data : List Nat) : Option LogEntry :=
  if data.length < 21 then none
  else
    let entrySize := getU32 data 8
    if data.length < entrySize then none
    else
      let keyLen := getU16 data 13
      let valueLen := getU16 data 15
      if 17 + keyLen > data.length then none
      else if 17 + keyLen + valueLen > data.length then none
      else if 17 + keyLen + valueLen + 4 > data.length then none
      else
        some { LSN := getU64 data 0, EntrySize := entrySize, Typ := data.getD 12 0,
               KeyLen := keyLen, ValueLen := valueLen,
               Key := readBytes data 17 keyLen,
               Value := readBytes data (17 + keyLen) valueLen,
               Checksum := getU32 data (17 + keyLen + valueLen) }

/-- `LogEntry.ValidateChecksum`: re-serialize, CRC the bytes before the checksum
slot, compare with the entry's `Checksum` field. -/
def LogEntry.ValidateChecksum (e : LogEntry) : Bool :=
  let data := e.Serialize
  crc32 (data.take (data.length - 4)) == e.Checksum

/-- The WAL handle: the log file's bytes and the last assigned LSN. -/
structure WAL where
  file : List Nat
  lastLSN : Nat
deriving DecidableEq

/-- `NewWAL` on a missing or empty log file. -/
def NewWAL : WAL := { file := [], lastLSN := 0 }

/-- `WAL.Append`: increments the LSN, builds the entry (the source never assigns
`EntrySize` or `Checksum`, so both serialize as zero), and appends its bytes. -/
def WAL.Append (w : WAL) (typ : Nat) (key value : List Nat) : WAL × Nat :=
  let lastLSN := w.lastLSN + 1
  let entry : LogEntry :=
    { LSN := lastLSN, EntrySize := 0, Typ := typ,
      KeyLen := key.length % 65536, ValueLen := value.length % 65536,
      Key := key, Value := value, Checksum := 0 }
  let data := entry.Serialize
  ({ file := w.file ++ data, lastLSN := lastLSN }, lastLSN)

/-- The loop of `WAL.scanForLastLSN`, with fuel: reads each entry's 12-byte prefix
(a short read at the end stops the scan), keeps the running maximum LSN, and
advances by the declared entry size. Returns `none` when the fuel runs out, which
happens for every fuel exactly when the source loop does not terminate. -/
def scanLoop (file : List Nat) (offset lastLSN : Nat) : Nat → Option Nat
  | 0 => none
  | fuel + 1 =>
    if offset < file.length then
      if offset + 12 > file.length then some lastLSN
      else
        scanLoop file (offset + getU32 file (offset + 8))
          (if lastLSN < getU64 file offset then getU64 file offset else lastLSN) fuel
    else some lastLSN

/-- The loop of `WAL.ReadAll`, with fuel: stops at a short header, a declared size
overrunning the file, a failed deserialization, or a failed checksum validation. -/
def readAllLoop (data : List Nat) (offset : Nat) (entries : List LogEntry) :
    Nat → List LogEntry
  | 0 => entries.reverse
  | fuel + 1 =>
    if offset < data.length then
      if offset + 12 > data.length then entries.reverse
      else
        let entrySize := getU32 data (offset + 8)
        if offset + entrySize > data.length then entries.reverse
        else
          match Deserialize (readBytes data offset entrySize) with
          | none => entries.reverse
          | some entry =>
            if entry.ValidateChecksum then
              readAllLoop data (offset + entrySize) (entry :: entries) fuel
            else entries.reverse
    else entries.reverse

/-- `WAL.ReadAll`: walks the whole file collecting validated entries, oldest first.
The fuel `file.length + 1` exceeds the number of iterations whenever the source
loop terminates, because every continuing iteration advances the offset. -/
def WAL.ReadAll (w : WAL) : List LogEntry :=
  readAllLoop w.file 0 [] (w.file.length + 1)

/-! ### Specification-side view of pages as record lists

The following definitions are not part of the source; they give the abstract view
(a page as the list of its records) against which the byte-level operations above
are verified. -/

/-- A record: its key bytes and value bytes. -/
abbrev Rec := List Nat × List Nat

/-- Bytes occupied by one serialized record. -/
def recSize (r : Rec) : Nat := 4 + r.1.length + r.2.length

/-- Bytes occupied by a packed sequence of serialized records. -/
def recsSize : List Rec → Nat
  | [] => 0
  | r :: rs => recSize r + recsSize rs

/-- The packed serialization of a sequence of records. -/
def encodeRecs : List Rec → List Nat
  | [] => []
  | (k, v) :: rs => serializeRecord k v ++ encodeRecs rs

/-- First-match search in a record list (the abstract `findRecord`). -/
def searchRecs : List Rec → List Nat → Option (List Nat)
  | [], _ => none
  | (k, v) :: rs, key => if k = key then some v else searchRecs rs key

/-- Removes the first record with the given key (the abstract `deleteRecord`). -/
def eraseKey : List Rec → List Nat → List Rec
  | [], _ => []
  | (k, v) :: rs, key => if k = key then rs else (k, v) :: eraseKey rs key

/-- The keys of a record list. -/
def recsKeys (rs : List Rec) : List (List Nat) := rs.map Prod.fst

/-- All keys and values fit the 16-bit length fields. -/
def recsBounded (rs : List Rec) : Prop :=
  ∀ r ∈ rs, r.1.length ≤ 65535 ∧ r.2.length ≤ 65535

/-- The bytes of `data` from `off` on hold exactly the packed records `recs`
(and they fit before the end of `data`). -/
def RecsAt (data : List Nat) (off : Nat) (recs : List Rec) : Prop :=
  readBytes data off (recsSize recs) = encodeRecs recs ∧
    off + recsSize recs ≤ data.length ∧ recsBounded recs

/-- A well-formed page holding exactly the records `recs` after its 2-byte
record-count header. -/
def PageWF (p : Page) (recs : List Rec) : Prop :=
  p.Data.length = PageSize ∧ p.RecordCount = recs.length ∧ RecsAt p.Data 2 recs

/-- The invariant tying a storage state to the records `recsOf id` of each page:
the two counters agree, the cache is a well-formed map containing every page id
below `totalPages`, every cached page is well-formed, keys are unique within and
across pages, and the index points every stored key at its page. -/
structure StorageRepr (s : Storage) (recsOf : Nat → List Rec) : Prop where
  meta : s.nextPageID = s.totalPages
  indexNodup : (s.pageIndex.map Prod.fst).Nodup
  cacheNodup : (s.pages.map Prod.fst).Nodup
  cacheDom : ∀ id, id < s.totalPages ↔ (cacheLookup s.pages id).isSome
  pageWF : ∀ id p, cacheLookup s.pages id = some p → PageWF p (recsOf id) ∧ p.ID = id
  recsEmpty : ∀ id, s.totalPages ≤ id → recsOf id = []
  keysNodup : ∀ id, (recsKeys (recsOf id)).Nodup
  keysDisj : ∀ id₁ id₂ k, id₁ ≠ id₂ → k ∈ recsKeys (recsOf id₁) →
    k ∉ recsKeys (recsOf id₂)
  indexSound : ∀ id k, k ∈ recsKeys (recsOf id) → indexLookup s.pageIndex k = some id
  indexRange : ∀ k id, indexLookup s.pageIndex k = some id → id < s.totalPages

/-- The page object `loadPage` builds from the 4096 bytes read from disk. -/
def freshLoad (pageID : Nat) (pageData : List Nat) : Page :=
  { ID := pageID, Data := pageData, IsDirty := false,
    RecordCount := if 2 ≤ pageData.length then getU16 pageData 0 else 0 }

/-- `t` is `s` with possibly some extra cached pages, each of which is a clean
copy of the corresponding on-disk page; everything else agrees. -/
def CacheExtends (s t : Storage) : Prop :=
  t.disk = s.disk ∧ t.pageIndex = s.pageIndex ∧ t.nextPageID = s.nextPageID ∧
    t.totalPages = s.totalPages ∧
    ∀ id, cacheLookup t.pages id = cacheLookup s.pages id ∨
      (cacheLookup s.pages id = none ∧
        ∃ pd, s.disk.pages.get? id = some pd ∧
          cacheLookup t.pages id = some (freshLoad id pd))

/-- The full behavioural contract of one `Put` call on an invariant-satisfying
state, used to prove the claims about `Put`: the invariant is re-established on
the post-state; the disk is untouched; success appends the new record to the
key's page after removing any old record for the key; failure is always the
page-full error, leaves the index unchanged, and (for an existing key) leaves
the key's page with its old record already removed; and success happens exactly
when the new record fits. -/
def PutSpecShape (s : Storage) (recsOf : Nat → List Rec) (key value : List Nat) :
    Prop :=
  ∃ recsOf', StorageRepr (s.Put key value).1 recsOf' ∧
    (s.Put key value).1.disk = s.disk ∧
    (∀ k, k ≠ key →
      indexLookup (s.Put key value).1.pageIndex k = indexLookup s.pageIndex k) ∧
    ((s.Put key value).2 = .ok () →
      ∃ pid, indexLookup (s.Put key value).1.pageIndex key = some pid ∧
        recsOf' pid = eraseKey (recsOf pid) key ++ [(key, value)] ∧
        (∃ p, cacheLookup (s.Put key value).1.pages pid = some p ∧
          p.IsDirty = true) ∧
        (∀ id, id ≠ pid → recsOf' id = recsOf id) ∧
        (∀ pid0, indexLookup s.pageIndex key = some pid0 → pid = pid0) ∧
        ((pid < s.totalPages ∧ (s.Put key value).1.totalPages = s.totalPages) ∨
          (pid = s.totalPages ∧
            (s.Put key value).1.totalPages = s.totalPages + 1 ∧
            indexLookup s.pageIndex key = none ∧
            ∀ id, id < s.totalPages →
              ¬ 2 + recsSize (recsOf id) + (4 + key.length + value.length)
                ≤ PageSize))) ∧
    ((s.Put key value).2 ≠ .ok () →
      (s.Put key value).2 = .error "page full: not enough space for record" ∧
      (s.Put key value).1.pageIndex = s.pageIndex ∧
      (∀ pid, indexLookup s.pageIndex key = some pid →
        recsOf' pid = eraseKey (recsOf pid) key ∧
        (∀ id, id ≠ pid → recsOf' id = recsOf id) ∧
        (s.Put key value).1.totalPages = s.totalPages) ∧
      (indexLookup s.pageIndex key = none →
        (∀ id, recsOf' id = recsOf id) ∧
        (s.Put key value).1.totalPages = s.totalPages + 1)) ∧
    (indexLookup s.pageIndex key = none →
      ((s.Put key value).2 = .ok () ↔
        2 + (4 + key.length + value.length) ≤ PageSize)) ∧
    (∀ pid, indexLookup s.pageIndex key = some pid →
      ((s.Put key value).2 = .ok () ↔
        2 + recsSize (eraseKey (recsOf pid) key) + (4 + key.length + value.length)
          ≤ PageSize))

/-! ## Byte-slice infrastructure -/

theorem length_readBytes (data : List Nat) (off len : Nat) :
    (readBytes data off len).length = min len (data.length - off) := by
  simp [readBytes]

theorem getElem?_readBytes (data : List Nat) (off len i : Nat) :
    (readBytes data off len)[i]? = if i < len then data[off + i]? else none := by
  simp [readBytes, List.getElem?_take, List.getElem?_drop]

theorem getD_readBytes (data : List Nat) (off len i : Nat) :
    (readBytes data off len).getD i 0 = if i < len then data.getD (off + i) 0 else 0 := by
  simp only [List.getD_eq_getElem?_getD, getElem?_readBytes]
  split <;> rfl

theorem length_writeBytes {data src : List Nat} {off : Nat}
    (h : off + src.length ≤ data.length) :
    (writeBytes data off src).length = data.length := by
  simp only [writeBytes, List.length_append, List.length_take, List.length_drop]
  omega

theorem getElem?_writeBytes {data src : List Nat} {off : Nat}
    (h : off + src.length ≤ data.length) (k : Nat) :
    (writeBytes data off src)[k]? =
      if k < off then data[k]?
      else if k < off + src.length then src[k - off]?
      else data[k]? := by
  have hoff : (data.take off).length = off := by
    simp only [List.length_take]; omega
  simp only [writeBytes, List.append_assoc, List.getElem?_append, hoff,
    List.length_append, List.getElem?_take, List.getElem?_drop]
  by_cases h1 : k < off
  · simp [h1]
  · simp only [if_neg h1]
    by_cases h2 : k < off + src.length
    · have h3 : k - off < src.length := by omega
      simp [h2, h3, List.getElem?_append, if_pos h3]
    · have h3 : ¬ k - off < src.length := by omega
      have h4 : k - off - src.length + (off + src.length) = k := by omega
      simp only [if_neg h2, List.getElem?_append, if_neg h3, List.getElem?_drop]
      rw [Nat.add_comm (off + src.length), h4]

theorem getD_writeBytes {data src : List Nat} {off : Nat}
    (h : off + src.length ≤ data.length) (k : Nat) :
    (writeBytes data off src).getD k 0 =
      if k < off then data.getD k 0
      else if k < off + src.length then src.getD (k - off) 0
      else data.getD k 0 := by
  simp only [List.getD_eq_getElem?_getD, getElem?_writeBytes h]
  split <;> [rfl; split <;> rfl]

theorem getD_append (l₁ l₂ : List Nat) (k : Nat) :
    (l₁ ++ l₂).getD k 0 =
      if k < l₁.length then l₁.getD k 0 else l₂.getD (k - l₁.length) 0 := by
  simp only [List.getD_eq_getElem?_getD, List.getElem?_append]
  split <;> rfl

theorem getD_replicate (n a k : Nat) :
    (List.replicate n a).getD k 0 = if k < n then a else 0 := by
  simp only [List.getD_eq_getElem?_getD, List.getElem?_replicate]
  split <;> rfl

theorem readBytes_add (data : List Nat) (off m n : Nat) :
    readBytes data off (m + n) = readBytes data off m ++ readBytes data (off + m) n := by
  unfold readBytes
  rw [List.take_add, List.drop_drop]

theorem getD_of_readBytes_eq {data bs : List Nat} {off n : Nat}
    (h : readBytes data off n = bs) {i : Nat} (hi : i < n) :
    data.getD (off + i) 0 = bs.getD i 0 := by
  have h2 : (readBytes data off n).getD i 0 = bs.getD i 0 := by rw [h]
  rwa [getD_readBytes, if_pos hi] at h2

theorem getU16_of_readBytes_eq {data bs : List Nat} {off n : Nat}
    (h : readBytes data off n = bs) {i : Nat} (hi : i + 2 ≤ n) :
    getU16 data (off + i) = getU16 bs i := by
  unfold getU16
  rw [getD_of_readBytes_eq h (by omega),
    show off + i + 1 = off + (i + 1) by omega, getD_of_readBytes_eq h (by omega)]

theorem readBytes_readBytes {data bs : List Nat} {off n : Nat}
    (h : readBytes data off n = bs) {c m : Nat} (hcm : c + m ≤ n) :
    readBytes data (off + c) m = readBytes bs c m := by
  subst h
  apply List.ext_getElem?
  intro i
  simp only [getElem?_readBytes]
  by_cases hi : i < m
  · have h1 : c + i < n := by omega
    simp [hi, h1, Nat.add_assoc]
  · simp [hi]

theorem take_readBytes (data : List Nat) (off n m : Nat) :
    (readBytes data off n).take m = readBytes data off (min m n) := by
  simp [readBytes, List.take_take]

theorem readBytes_writeBytes_self {data src : List Nat} {off : Nat}
    (h : off + src.length ≤ data.length) :
    readBytes (writeBytes data off src) off src.length = src := by
  apply List.ext_getElem?
  intro i
  simp only [getElem?_readBytes, getElem?_writeBytes h]
  by_cases hi : i < src.length
  · simp only [if_pos hi, if_neg (show ¬ off + i < off by omega),
      if_pos (show off + i < off + src.length by omega), Nat.add_sub_cancel_left]
  · rw [if_neg hi, eq_comm, List.getElem?_eq_none_iff]
    omega

theorem readBytes_writeBytes_left {data src : List Nat} {off : Nat}
    (h : off + src.length ≤ data.length) {a m : Nat} (ham : a + m ≤ off) :
    readBytes (writeBytes data off src) a m = readBytes data a m := by
  apply List.ext_getElem?
  intro i
  simp only [getElem?_readBytes, getElem?_writeBytes h]
  by_cases hi : i < m
  · simp only [if_pos hi, if_pos (show a + i < off by omega)]
  · simp only [if_neg hi]

theorem readBytes_writeBytes_right {data src : List Nat} {off : Nat}
    (h : off + src.length ≤ data.length) {a m : Nat} (ham : off + src.length ≤ a) :
    readBytes (writeBytes data off src) a m = readBytes data a m := by
  apply List.ext_getElem?
  intro i
  simp only [getElem?_readBytes, getElem?_writeBytes h]
  by_cases hi : i < m
  · simp only [if_pos hi, if_neg (show ¬ a + i < off by omega),
      if_neg (show ¬ a + i < off + src.length by omega)]
  · simp only [if_neg hi]

theorem getU16_putU16_append (n : Nat) (rest : List Nat) :
    getU16 (putU16 n ++ rest) 0 = n % 65536 := by
  simp only [putU16, List.cons_append, getU16, List.getD_cons_zero, List.getD_cons_succ]
  omega

theorem getU16_cons_cons (a b : Nat) (l : List Nat) (i : Nat) :
    getU16 (a :: b :: l) (i + 2) = getU16 l i := by
  simp [getU16, List.getD_cons_succ]

theorem length_serializeRecord (k v : List Nat) :
    (serializeRecord k v).length = 4 + k.length + v.length := by
  simp only [serializeRecord, putU16, List.length_append, List.length_cons,
    List.length_nil]

theorem readBytes_writeBytes_take {data src : List Nat} {off : Nat}
    (h : off + src.length ≤ data.length) {m : Nat} (hm : m ≤ src.length) :
    readBytes (writeBytes data off src) off m = src.take m := by
  apply List.ext_getElem?
  intro i
  simp only [getElem?_readBytes, getElem?_writeBytes h, List.getElem?_take]
  by_cases hi : i < m
  · simp only [if_pos hi, if_neg (show ¬ off + i < off by omega),
      if_pos (show off + i < off + src.length by omega), Nat.add_sub_cancel_left]
  · simp only [if_neg hi]

/-! ## Record-sequence lemmas -/

theorem recsSize_append (xs ys : List Rec) :
    recsSize (xs ++ ys) = recsSize xs + recsSize ys := by
  induction xs with
  | nil => exact (Nat.zero_add _).symm
  | cons r rs ih =>
    show recSize r + recsSize (rs ++ ys) = recSize r + recsSize rs + recsSize ys
    rw [ih]
    omega

theorem encodeRecs_append (xs ys : List Rec) :
    encodeRecs (xs ++ ys) = encodeRecs xs ++ encodeRecs ys := by
  induction xs with
  | nil => simp [encodeRecs]
  | cons r rs ih =>
    obtain ⟨k, v⟩ := r
    simp [encodeRecs, ih]

theorem length_encodeRecs (xs : List Rec) : (encodeRecs xs).length = recsSize xs := by
  induction xs with
  | nil => simp [encodeRecs, recsSize]
  | cons r rs ih =>
    obtain ⟨k, v⟩ := r
    show (serializeRecord k v ++ encodeRecs rs).length = recSize (k, v) + recsSize rs
    rw [List.length_append, ih, length_serializeRecord]
    rfl

theorem recSize_pos (r : Rec) : 4 ≤ recSize r := by
  simp [recSize]; omega

theorem readBytes_serializeRecord_key (k v : List Nat) :
    readBytes (serializeRecord k v) 4 k.length = k := by
  show ((putU16 k.length ++ putU16 v.length ++ k ++ v).drop 4).take k.length = k
  rw [show putU16 k.length ++ putU16 v.length ++ k ++ v
      = (putU16 k.length ++ putU16 v.length) ++ (k ++ v) by simp [putU16],
    List.drop_left' (by simp [putU16]), List.take_left]

theorem readBytes_serializeRecord_value (k v : List Nat) :
    readBytes (serializeRecord k v) (4 + k.length) v.length = v := by
  show ((serializeRecord k v).drop (4 + k.length)).take v.length = v
  rw [show serializeRecord k v
      = ((putU16 k.length ++ putU16 v.length) ++ k) ++ v by simp [serializeRecord, putU16],
    List.drop_left'
      (by simp only [List.length_append, putU16, List.length_cons, List.length_nil]),
    List.take_length]

theorem recsAt_head_keyLen {data k v : List Nat} {off : Nat}
    (hkl : k.length ≤ 65535)
    (hhead : readBytes data off (recSize (k, v)) = serializeRecord k v) :
    getU16 data off = k.length := by
  have h := getU16_of_readBytes_eq hhead (i := 0) (by have := recSize_pos (k, v); omega)
  rw [Nat.add_zero] at h
  rw [h, show serializeRecord k v = putU16 k.length ++ (putU16 v.length ++ k ++ v) by
    simp [serializeRecord], getU16_putU16_append]
  omega

theorem recsAt_head_valueLen {data k v : List Nat} {off : Nat}
    (hvl : v.length ≤ 65535)
    (hhead : readBytes data off (recSize (k, v)) = serializeRecord k v) :
    getU16 data (off + 2) = v.length := by
  have h := getU16_of_readBytes_eq hhead (i := 2)
    (by have := recSize_pos (k, v); simp only [recSize] at this ⊢; omega)
  rw [h, show serializeRecord k v
      = (k.length % 256) :: (k.length / 256 % 256) :: (putU16 v.length ++ (k ++ v)) by
        simp [serializeRecord, putU16],
    show (2 : Nat) = 0 + 2 by rfl, getU16_cons_cons, getU16_putU16_append]
  omega

theorem recsAt_head_key {data k v : List Nat} {off : Nat}
    (hhead : readBytes data off (recSize (k, v)) = serializeRecord k v) :
    readBytes data (off + 4) k.length = k := by
  rw [readBytes_readBytes hhead (c := 4) (m := k.length)
      (by simp only [recSize]; omega),
    readBytes_serializeRecord_key]

theorem recsAt_head_value {data k v : List Nat} {off : Nat}
    (hhead : readBytes data off (recSize (k, v)) = serializeRecord k v) :
    readBytes data (off + (4 + k.length)) v.length = v := by
  rw [readBytes_readBytes hhead (c := 4 + k.length) (m := v.length)
      (by simp only [recSize]; omega),
    readBytes_serializeRecord_value]

theorem RecsAt.head {data : List Nat} {off : Nat} {k v : List Nat} {rs : List Rec}
    (h : RecsAt data off ((k, v) :: rs)) :
    readBytes data off (recSize (k, v)) = serializeRecord k v := by
  obtain ⟨hread, hb, hbnd⟩ := h
  rw [show recsSize ((k, v) :: rs) = recSize (k, v) + recsSize rs from rfl] at hread hb
  rw [readBytes_add] at hread
  have hr : recSize (k, v) = 4 + k.length + v.length := rfl
  have hlen : (readBytes data off (recSize (k, v))).length = (serializeRecord k v).length := by
    rw [length_readBytes, length_serializeRecord]
    omega
  exact (List.append_inj hread hlen).1

theorem RecsAt.tail {data : List Nat} {off : Nat} {k v : List Nat} {rs : List Rec}
    (h : RecsAt data off ((k, v) :: rs)) :
    RecsAt data (off + recSize (k, v)) rs := by
  obtain ⟨hread, hb, hbnd⟩ := h
  rw [show recsSize ((k, v) :: rs) = recSize (k, v) + recsSize rs from rfl] at hread hb
  rw [readBytes_add] at hread
  have hr : recSize (k, v) = 4 + k.length + v.length := rfl
  have hlen : (readBytes data off (recSize (k, v))).length = (serializeRecord k v).length := by
    rw [length_readBytes, length_serializeRecord]
    omega
  refine ⟨(List.append_inj hread hlen).2, by omega, ?_⟩
  intro r hr
  exact hbnd r (List.mem_cons_of_mem _ hr)

theorem RecsAt.hkl {data : List Nat} {off : Nat} {k v : List Nat} {rs : List Rec}
    (h : RecsAt data off ((k, v) :: rs)) : k.length ≤ 65535 :=
  (h.2.2 (k, v) (List.mem_cons_self _ _)).1

theorem RecsAt.hvl {data : List Nat} {off : Nat} {k v : List Nat} {rs : List Rec}
    (h : RecsAt data off ((k, v) :: rs)) : v.length ≤ 65535 :=
  (h.2.2 (k, v) (List.mem_cons_self _ _)).2

theorem RecsAt_nil {data : List Nat} {off : Nat} (h : off ≤ data.length) :
    RecsAt data off [] := by
  refine ⟨?_, by simpa [recsSize] using h, by simp [recsBounded]⟩
  simp [recsSize, encodeRecs, readBytes]

theorem RecsAt_append_of {data : List Nat} {off : Nat} {xs ys : List Rec}
    (h1 : RecsAt data off xs) (h2 : RecsAt data (off + recsSize xs) ys) :
    RecsAt data off (xs ++ ys) := by
  refine ⟨?_, ?_, ?_⟩
  · rw [recsSize_append, readBytes_add, encodeRecs_append, h1.1, h2.1]
  · have := h2.2.1
    rw [recsSize_append]
    omega
  · intro r hr
    rcases List.mem_append.mp hr with hr | hr
    exacts [h1.2.2 r hr, h2.2.2 r hr]

theorem RecsAt.of_append {data : List Nat} {off : Nat} {xs ys : List Rec}
    (h : RecsAt data off (xs ++ ys)) :
    RecsAt data off xs ∧ RecsAt data (off + recsSize xs) ys := by
  obtain ⟨hread, hb, hbnd⟩ := h
  rw [recsSize_append] at hread hb
  rw [readBytes_add, encodeRecs_append] at hread
  have hlen : (readBytes data off (recsSize xs)).length = (encodeRecs xs).length := by
    rw [length_readBytes, length_encodeRecs]
    omega
  obtain ⟨hx, hy⟩ := List.append_inj hread hlen
  exact ⟨⟨hx, by omega, fun r hr => hbnd r (List.mem_append.mpr (Or.inl hr))⟩,
    ⟨hy, by omega, fun r hr => hbnd r (List.mem_append.mpr (Or.inr hr))⟩⟩

theorem RecsAt_single_of {data k v : List Nat} {off : Nat}
    (hkl : k.length ≤ 65535) (hvl : v.length ≤ 65535)
    (hread : readBytes data off (recSize (k, v)) = serializeRecord k v)
    (hb : off + recSize (k, v) ≤ data.length) : RecsAt data off [(k, v)] := by
  refine ⟨?_, ?_, ?_⟩
  · simpa [recsSize, encodeRecs] using hread
  · simpa [recsSize] using hb
  · intro r hr
    simp only [List.mem_singleton] at hr
    subst hr
    exact ⟨hkl, hvl⟩

/-! ## Specifications of the page-level loops on well-formed data -/

theorem deserializeRecord_of_recsAt {data : List Nat} {off : Nat} {k v : List Nat}
    {rs : List Rec} (h : RecsAt data off ((k, v) :: rs)) :
    deserializeRecord data off = some (k, v, recSize (k, v)) := by
  have hhead := h.head
  have hb := h.2.1
  have hsz : recsSize ((k, v) :: rs) = recSize (k, v) + recsSize rs := rfl
  have hrs : recSize (k, v) = 4 + k.length + v.length := rfl
  simp only [deserializeRecord, recsAt_head_keyLen h.hkl hhead,
    recsAt_head_valueLen h.hvl hhead]
  rw [if_neg (by omega), if_neg (by omega), recsAt_head_key hhead,
    show off + 4 + k.length = off + (4 + k.length) by omega, recsAt_head_value hhead, hrs]

theorem skipRecords_of_recsAt {data : List Nat} {off : Nat} {rs : List Rec}
    (h : RecsAt data off rs) :
    skipRecords data off rs.length = some (off + recsSize rs) := by
  induction rs generalizing off with
  | nil => simp [skipRecords, recsSize]
  | cons r rs ih =>
    obtain ⟨k, v⟩ := r
    have hhead := h.head
    have hb := h.2.1
    have hsz : recsSize ((k, v) :: rs) = recSize (k, v) + recsSize rs := rfl
    have hrs : recSize (k, v) = 4 + k.length + v.length := rfl
    show skipRecords data off (rs.length + 1) = _
    rw [skipRecords, if_neg (by omega), recsAt_head_keyLen h.hkl hhead,
      recsAt_head_valueLen h.hvl hhead,
      show off + 4 + k.length + v.length = off + recSize (k, v) by omega,
      ih h.tail]
    congr 1
    omega

theorem estimateUsed_of_recsAt {data : List Nat} {off : Nat} {rs : List Rec}
    (h : RecsAt data off rs) :
    estimateUsed data off rs.length = off + recsSize rs := by
  induction rs generalizing off with
  | nil => simp [estimateUsed, recsSize]
  | cons r rs ih =>
    obtain ⟨k, v⟩ := r
    have hhead := h.head
    have hb := h.2.1
    have hsz : recsSize ((k, v) :: rs) = recSize (k, v) + recsSize rs := rfl
    have hrs : recSize (k, v) = 4 + k.length + v.length := rfl
    show estimateUsed data off (rs.length + 1) = _
    rw [estimateUsed, if_neg (by omega), recsAt_head_keyLen h.hkl hhead,
      recsAt_head_valueLen h.hvl hhead,
      show off + 4 + k.length + v.length = off + recSize (k, v) by omega,
      ih h.tail]
    omega

theorem findRecordAux_of_recsAt {data key : List Nat} {off : Nat} {rs : List Rec}
    (h : RecsAt data off rs) :
    findRecordAux data key off rs.length = searchRecs rs key := by
  induction rs generalizing off with
  | nil => rfl
  | cons r rs ih =>
    obtain ⟨k, v⟩ := r
    show findRecordAux data key off (rs.length + 1) = _
    rw [findRecordAux, deserializeRecord_of_recsAt h]
    show (if k = key then some v else findRecordAux data key (off + recSize (k, v)) rs.length)
      = searchRecs ((k, v) :: rs) key
    rw [ih h.tail]
    rfl

theorem deleteRecordAux_of_not_mem {data key : List Nat} {off : Nat} {rs : List Rec}
    (h : RecsAt data off rs) (hk : key ∉ recsKeys rs) :
    deleteRecordAux data key off rs.length = none := by
  induction rs generalizing off with
  | nil => rfl
  | cons r rs ih =>
    obtain ⟨k, v⟩ := r
    have hne : k ≠ key := by
      intro hkk
      exact hk (by simp [recsKeys, hkk])
    have htl : key ∉ recsKeys rs := by
      intro hmem
      exact hk (by simp [recsKeys] at hmem ⊢; exact Or.inr hmem)
    show deleteRecordAux data key off (rs.length + 1) = none
    rw [deleteRecordAux, deserializeRecord_of_recsAt h]
    show (if k = key then _ else deleteRecordAux data key (off + recSize (k, v)) rs.length)
      = none
    rw [if_neg hne]
    exact ih h.tail htl

theorem deleteRecordAux_found {data key v0 : List Nat} {off : Nat} {pre post : List Rec}
    (h : RecsAt data off (pre ++ (key, v0) :: post))
    (hpre : key ∉ recsKeys pre) :
    ∃ newData,
      deleteRecordAux data key off (pre ++ (key, v0) :: post).length = some newData ∧
      newData.length = data.length ∧
      RecsAt newData off (pre ++ post) ∧
      (∀ a m, a + m ≤ off → readBytes newData a m = readBytes data a m) := by
  induction pre generalizing off with
  | nil =>
    simp only [List.nil_append] at h ⊢
    have htail := h.tail
    have hb := h.2.1
    have hsz : recsSize ((key, v0) :: post) = recSize (key, v0) + recsSize post := rfl
    have hsrclen : (readBytes data (off + recSize (key, v0))
        (data.length - (off + recSize (key, v0)))).length
        = data.length - (off + recSize (key, v0)) := by
      rw [length_readBytes]
      omega
    have hw : off + (readBytes data (off + recSize (key, v0))
        (data.length - (off + recSize (key, v0)))).length ≤ data.length := by
      rw [hsrclen]
      omega
    refine ⟨writeBytes data off (readBytes data (off + recSize (key, v0))
      (data.length - (off + recSize (key, v0)))), ?_, ?_, ?_, ?_⟩
    · show deleteRecordAux data key off (post.length + 1) = _
      rw [deleteRecordAux, deserializeRecord_of_recsAt h]
      show (if key = key then
          some (writeBytes data off (readBytes data (off + recSize (key, v0))
            (data.length - (off + recSize (key, v0)))))
        else deleteRecordAux data key (off + recSize (key, v0)) post.length) = _
      rw [if_pos rfl]
    · rw [length_writeBytes hw]
    · refine ⟨?_, ?_, htail.2.2⟩
      · have hple : recsSize post ≤ (readBytes data (off + recSize (key, v0))
            (data.length - (off + recSize (key, v0)))).length := by
          rw [hsrclen]
          have := htail.2.1
          omega
        rw [readBytes_writeBytes_take hw hple, take_readBytes,
          Nat.min_eq_left (by have := htail.2.1; omega), htail.1]
      · rw [length_writeBytes hw]
        have := htail.2.1
        omega
    · intro a m ham
      exact readBytes_writeBytes_left hw ham
  | cons r pre ih =>
    obtain ⟨k, v⟩ := r
    have h' : RecsAt data off ((k, v) :: (pre ++ (key, v0) :: post)) := by
      simpa using h
    have hne : k ≠ key := by
      intro hkk
      exact hpre (by simp [recsKeys, hkk])
    have hpre' : key ∉ recsKeys pre := by
      intro hmem
      exact hpre (by simp [recsKeys] at hmem ⊢; exact Or.inr hmem)
    obtain ⟨nd, hnd, hlen, hrecs, hframe⟩ := ih h'.tail hpre'
    have hbnd : off + recSize (k, v) + recsSize (pre ++ (key, v0) :: post) ≤ data.length := by
      have := h'.2.1
      have hsz : recsSize ((k, v) :: (pre ++ (key, v0) :: post))
          = recSize (k, v) + recsSize (pre ++ (key, v0) :: post) := rfl
      omega
    refine ⟨nd, ?_, hlen, ?_, ?_⟩
    · show deleteRecordAux data key off ((pre ++ (key, v0) :: post).length + 1) = some nd
      rw [deleteRecordAux, deserializeRecord_of_recsAt h']
      show (if k = key then _ else deleteRecordAux data key (off + recSize (k, v))
        (pre ++ (key, v0) :: post).length) = some nd
      rw [if_neg hne]
      exact hnd
    · have h1 : RecsAt nd off [(k, v)] := by
        apply RecsAt_single_of h'.hkl h'.hvl
        · rw [hframe off (recSize (k, v)) (le_refl _)]
          exact h'.head
        · rw [hlen]
          have := h'.2.1
          have hsz : recsSize ((k, v) :: (pre ++ (key, v0) :: post))
              = recSize (k, v) + recsSize (pre ++ (key, v0) :: post) := rfl
          omega
      have h2 := RecsAt_append_of h1 (by simpa [recsSize] using hrecs)
      simpa using h2
    · intro a m ham
      exact hframe a m (by omega)

/-! ## Page-level operation specifications -/

theorem findRecord_of_pageWF {p : Page} {recs : List Rec} (h : PageWF p recs)
    (key : List Nat) : p.findRecord key = searchRecs recs key := by
  rw [Page.findRecord, h.2.1, findRecordAux_of_recsAt h.2.2]

theorem estimateUsed_of_pageWF {p : Page} {recs : List Rec} (h : PageWF p recs) :
    estimateUsed p.Data 2 p.RecordCount = 2 + recsSize recs := by
  rw [h.2.1, estimateUsed_of_recsAt h.2.2]

theorem addRecord_ok_of_pageWF {p : Page} {recs : List Rec} (h : PageWF p recs)
    {k v : List Nat}
    (hfit : 2 + recsSize recs + (4 + k.length + v.length) ≤ PageSize) :
    p.addRecord k v =
      .ok { p with Data := writeBytes p.Data (2 + recsSize recs) (serializeRecord k v),
                   RecordCount := p.RecordCount + 1, IsDirty := true } ∧
    PageWF { p with Data := writeBytes p.Data (2 + recsSize recs) (serializeRecord k v),
                    RecordCount := p.RecordCount + 1, IsDirty := true }
      (recs ++ [(k, v)]) := by
  obtain ⟨hlen, hcount, hrecs⟩ := h
  have hps : PageSize = 4096 := rfl
  have hrl : (serializeRecord k v).length = 4 + k.length + v.length :=
    length_serializeRecord k v
  have hw : (2 + recsSize recs) + (serializeRecord k v).length ≤ p.Data.length := by
    rw [hrl, hlen]
    omega
  constructor
  · rw [Page.addRecord, hcount, skipRecords_of_recsAt hrecs]
    show (if 2 + recsSize recs + (serializeRecord k v).length > p.Data.length
      then _ else _) = _
    rw [if_neg (by omega)]
  · refine ⟨by rw [length_writeBytes hw, hlen], by simp [hcount], ?_⟩
    have hrecs' : RecsAt (writeBytes p.Data (2 + recsSize recs) (serializeRecord k v))
        2 recs := by
      refine ⟨?_, ?_, hrecs.2.2⟩
      · rw [readBytes_writeBytes_left hw (by omega), hrecs.1]
      · rw [length_writeBytes hw]
        exact hrecs.2.1
    have hsingle : RecsAt (writeBytes p.Data (2 + recsSize recs) (serializeRecord k v))
        (2 + recsSize recs) [(k, v)] := by
      refine RecsAt_single_of (by omega) (by omega) ?_ ?_
      · have hself := readBytes_writeBytes_self hw
        rw [show recSize (k, v) = (serializeRecord k v).length by rw [hrl]; rfl]
        exact hself
      · rw [length_writeBytes hw, hlen]
        show 2 + recsSize recs + recSize (k, v) ≤ PageSize
        have hrk : recSize (k, v) = 4 + k.length + v.length := rfl
        omega
    exact RecsAt_append_of hrecs' hsingle

theorem addRecord_full_of_pageWF {p : Page} {recs : List Rec} (h : PageWF p recs)
    {k v : List Nat}
    (hfit : PageSize < 2 + recsSize recs + (4 + k.length + v.length)) :
    p.addRecord k v = .error "page full: not enough space for record" := by
  obtain ⟨hlen, hcount, hrecs⟩ := h
  have hrl : (serializeRecord k v).length = 4 + k.length + v.length :=
    length_serializeRecord k v
  rw [Page.addRecord, hcount, skipRecords_of_recsAt hrecs]
  show (if 2 + recsSize recs + (serializeRecord k v).length > p.Data.length
    then _ else _) = _
  rw [if_pos (by rw [hrl, hlen]; omega)]

theorem deleteRecord_not_mem_of_pageWF {p : Page} {recs : List Rec} (h : PageWF p recs)
    {key : List Nat} (hk : key ∉ recsKeys recs) :
    p.deleteRecord key = (p, false) := by
  rw [Page.deleteRecord, h.2.1, deleteRecordAux_of_not_mem h.2.2 hk]

theorem deleteRecord_found_of_pageWF {p : Page} {pre post : List Rec}
    {key v0 : List Nat} (h : PageWF p (pre ++ (key, v0) :: post))
    (hpre : key ∉ recsKeys pre) :
    ∃ p', p.deleteRecord key = (p', true) ∧ PageWF p' (pre ++ post) ∧
      p'.ID = p.ID ∧ p'.IsDirty = true := by
  obtain ⟨hlen, hcount, hrecs⟩ := h
  obtain ⟨nd, hnd, hndlen, hndrecs, _⟩ := deleteRecordAux_found hrecs hpre
  refine ⟨{ p with Data := nd, RecordCount := p.RecordCount - 1, IsDirty := true },
    ?_, ?_, rfl, rfl⟩
  · rw [Page.deleteRecord, hcount, hnd]
  · refine ⟨by rw [hndlen, hlen], ?_, hndrecs⟩
    show p.RecordCount - 1 = (pre ++ post).length
    rw [hcount]
    simp

/-! ## The record codec round-trip (claim C9) -/

/-- C9: for keys and values of at most 65535 bytes, `deserializeRecord` applied at
offset 0 to `serializeRecord key value` succeeds and returns exactly the key, the
value, and `4 + len(key) + len(value)` bytes read: the record codec is a left
inverse of serialization. -/
theorem deserializeRecord_serializeRecord (k v : List Nat)
    (hkl : k.length ≤ 65535) (hvl : v.length ≤ 65535) :
    deserializeRecord (serializeRecord k v) 0 =
      some (k, v, 4 + k.length + v.length) := by
  have hsingle : RecsAt (serializeRecord k v) 0 [(k, v)] := by
    apply RecsAt_single_of hkl hvl
    · have hsz : recSize (k, v) = (serializeRecord k v).length := by
        rw [length_serializeRecord]
        rfl
      rw [hsz]
      show ((serializeRecord k v).drop 0).take _ = _
      rw [List.drop_zero, List.take_length]
    · rw [length_serializeRecord]
      have hsz : recSize (k, v) = 4 + k.length + v.length := rfl
      omega
  rw [deserializeRecord_of_recsAt hsingle]
  rfl

/-- Witness for C9 at a concrete record. -/
theorem deserializeRecord_serializeRecord_witness :
    deserializeRecord (serializeRecord [1, 2] [3]) 0 = some ([1, 2], [3], 7) :=
  deserializeRecord_serializeRecord [1, 2] [3] (by decide) (by decide)

/-! ## Association-list map lemmas -/

theorem indexLookup_insert_self (l : List (List Nat × Nat)) (key : List Nat) (v : Nat) :
    indexLookup (indexInsert l key v) key = some v := by
  induction l with
  | nil => simp [indexInsert, indexLookup]
  | cons kv rest ih =>
    obtain ⟨k, w⟩ := kv
    by_cases hk : k = key
    · simp [indexInsert, hk, indexLookup]
    · simp [indexInsert, hk, indexLookup, ih]

theorem indexLookup_insert_ne (l : List (List Nat × Nat)) {key key' : List Nat} (v : Nat)
    (h : key ≠ key') : indexLookup (indexInsert l key v) key' = indexLookup l key' := by
  induction l with
  | nil => simp [indexInsert, indexLookup, h]
  | cons kv rest ih =>
    obtain ⟨k, w⟩ := kv
    by_cases hk : k = key
    · subst hk
      simp [indexInsert, indexLookup, h]
    · simp only [indexInsert, if_neg hk, indexLookup]
      by_cases hk' : k = key'
      · simp [hk']
      · simp [hk', ih]

theorem indexLookup_none_of_not_mem {l : List (List Nat × Nat)} {key : List Nat}
    (h : key ∉ l.map Prod.fst) : indexLookup l key = none := by
  induction l with
  | nil => rfl
  | cons kv rest ih =>
    obtain ⟨k, w⟩ := kv
    simp only [List.map_cons, List.mem_cons] at h
    push_neg at h
    have hne : ¬ k = key := fun hh => h.1 hh.symm
    simp only [indexLookup, if_neg hne]
    exact ih h.2

theorem indexLookup_mem_of_some {l : List (List Nat × Nat)} {key : List Nat} {v : Nat}
    (h : indexLookup l key = some v) : key ∈ l.map Prod.fst := by
  induction l with
  | nil => simp [indexLookup] at h
  | cons kv rest ih =>
    obtain ⟨k, w⟩ := kv
    by_cases hk : k = key
    · simp [hk]
    · simp only [indexLookup, if_neg hk] at h
      simp only [List.map_cons, List.mem_cons]
      exact Or.inr (ih h)

theorem indexLookup_erase_ne (l : List (List Nat × Nat)) {key key' : List Nat}
    (h : key' ≠ key) : indexLookup (indexErase l key) key' = indexLookup l key' := by
  induction l with
  | nil => simp [indexErase]
  | cons kv rest ih =>
    obtain ⟨k, w⟩ := kv
    by_cases hk : k = key
    · subst hk
      have hne : ¬ k = key' := fun hh => h hh.symm
      simp only [indexErase, if_pos, indexLookup, if_neg hne]
    · simp only [indexErase, if_neg hk, indexLookup]
      by_cases hk' : k = key'
      · simp [hk']
      · simp [hk', ih]

theorem indexErase_sublist (l : List (List Nat × Nat)) (key : List Nat) :
    List.Sublist (indexErase l key) l := by
  induction l with
  | nil => simp [indexErase]
  | cons kv rest ih =>
    obtain ⟨k, w⟩ := kv
    by_cases hk : k = key
    · simp only [indexErase, if_pos hk]
      exact List.sublist_cons_self _ _
    · simp only [indexErase, if_neg hk]
      exact List.Sublist.cons₂ _ ih

theorem indexNodup_erase {l : List (List Nat × Nat)} (key : List Nat)
    (h : (l.map Prod.fst).Nodup) :
    ((indexErase l key).map Prod.fst).Nodup :=
  List.Nodup.sublist (List.Sublist.map _ (indexErase_sublist l key)) h

theorem not_mem_map_fst_indexErase {l : List (List Nat × Nat)} {key : List Nat}
    (h : (l.map Prod.fst).Nodup) :
    key ∉ (indexErase l key).map Prod.fst := by
  induction l with
  | nil => simp [indexErase]
  | cons kv rest ih =>
    obtain ⟨k, w⟩ := kv
    simp only [List.map_cons, List.nodup_cons] at h
    by_cases hk : k = key
    · subst hk
      simp only [indexErase, if_pos rfl]
      exact h.1
    · have hne : ¬ key = k := fun hh => hk hh.symm
      simp only [indexErase, if_neg hk, List.map_cons, List.mem_cons]
      push_neg
      exact ⟨hne, ih h.2⟩

theorem indexLookup_erase_self {l : List (List Nat × Nat)} {key : List Nat}
    (hnodup : (l.map Prod.fst).Nodup) :
    indexLookup (indexErase l key) key = none :=
  indexLookup_none_of_not_mem (not_mem_map_fst_indexErase hnodup)

theorem map_fst_indexInsert (l : List (List Nat × Nat)) (key : List Nat) (v : Nat) :
    (indexInsert l key v).map Prod.fst =
      if key ∈ l.map Prod.fst then l.map Prod.fst else l.map Prod.fst ++ [key] := by
  induction l with
  | nil => simp [indexInsert]
  | cons kv rest ih =>
    obtain ⟨k, w⟩ := kv
    by_cases hk : k = key
    · subst hk
      simp [indexInsert]
    · have hne : ¬ key = k := fun hh => hk hh.symm
      simp only [indexInsert, if_neg hk, List.map_cons, ih]
      by_cases hmem : key ∈ rest.map Prod.fst
      · simp [hmem, hne]
      · simp [hmem, hne]

theorem indexNodup_insert {l : List (List Nat × Nat)} (key : List Nat) (v : Nat)
    (h : (l.map Prod.fst).Nodup) :
    ((indexInsert l key v).map Prod.fst).Nodup := by
  rw [map_fst_indexInsert]
  by_cases hmem : key ∈ l.map Prod.fst
  · simpa [hmem] using h
  · simp only [if_neg hmem]
    simp [List.nodup_append, h, hmem]

theorem cacheLookup_insert_self (l : List (Nat × Page)) (id : Nat) (p : Page) :
    cacheLookup (cacheInsert l id p) id = some p := by
  induction l with
  | nil => simp [cacheInsert, cacheLookup]
  | cons kp rest ih =>
    obtain ⟨k, q⟩ := kp
    by_cases hk : k = id
    · simp [cacheInsert, hk, cacheLookup]
    · simp [cacheInsert, hk, cacheLookup, ih]

theorem cacheLookup_insert_ne (l : List (Nat × Page)) {id id' : Nat} (p : Page)
    (h : id ≠ id') : cacheLookup (cacheInsert l id p) id' = cacheLookup l id' := by
  induction l with
  | nil => simp [cacheInsert, cacheLookup, h]
  | cons kp rest ih =>
    obtain ⟨k, q⟩ := kp
    by_cases hk : k = id
    · subst hk
      simp [cacheInsert, cacheLookup, h]
    · simp only [cacheInsert, if_neg hk, cacheLookup]
      by_cases hk' : k = id'
      · simp [hk']
      · simp [hk', ih]

theorem map_fst_cacheInsert (l : List (Nat × Page)) (id : Nat) (p : Page) :
    (cacheInsert l id p).map Prod.fst =
      if id ∈ l.map Prod.fst then l.map Prod.fst else l.map Prod.fst ++ [id] := by
  induction l with
  | nil => simp [cacheInsert]
  | cons kp rest ih =>
    obtain ⟨k, q⟩ := kp
    by_cases hk : k = id
    · subst hk
      simp [cacheInsert]
    · have hne : ¬ id = k := fun hh => hk hh.symm
      simp only [cacheInsert, if_neg hk, List.map_cons, ih]
      by_cases hmem : id ∈ rest.map Prod.fst
      · simp [hmem, hne]
      · simp [hmem, hne]

theorem cacheNodup_insert {l : List (Nat × Page)} (id : Nat) (p : Page)
    (h : (l.map Prod.fst).Nodup) :
    ((cacheInsert l id p).map Prod.fst).Nodup := by
  rw [map_fst_cacheInsert]
  by_cases hmem : id ∈ l.map Prod.fst
  · simpa [hmem] using h
  · simp only [if_neg hmem]
    simp [List.nodup_append, h, hmem]

theorem cacheLookup_of_mem {l : List (Nat × Page)} {id : Nat} {p : Page}
    (hnodup : (l.map Prod.fst).Nodup) (hmem : (id, p) ∈ l) :
    cacheLookup l id = some p := by
  induction l with
  | nil => simp at hmem
  | cons kp rest ih =>
    obtain ⟨k, q⟩ := kp
    simp only [List.map_cons, List.nodup_cons] at hnodup
    rcases List.mem_cons.mp hmem with hmem1 | hmem1
    · rw [Prod.mk.injEq] at hmem1
      simp [cacheLookup, hmem1.1, hmem1.2]
    · have hne : k ≠ id := by
        intro hkk
        subst hkk
        exact hnodup.1 (List.mem_map.mpr ⟨(k, p), hmem1, rfl⟩)
      simp only [cacheLookup, if_neg hne]
      exact ih hnodup.2 hmem1

/-- The freshly allocated page of `allocateNewPage` is well-formed and empty. -/
theorem allocPage_wf (id : Nat) :
    PageWF { ID := id, IsDirty := true, RecordCount := 0,
             Data := writeBytes (List.replicate PageSize 0) 0 (putU16 0) } [] := by
  have hlen : (writeBytes (List.replicate PageSize 0) 0 (putU16 0)).length = PageSize := by
    rw [length_writeBytes (by simp [putU16]; decide), List.length_replicate]
  refine ⟨hlen, rfl, RecsAt_nil ?_⟩
  rw [hlen]
  have hps : PageSize = 4096 := rfl
  omega

/-! ## Record-key helper lemmas -/

theorem recsKeys_append (xs ys : List Rec) :
    recsKeys (xs ++ ys) = recsKeys xs ++ recsKeys ys := by
  simp [recsKeys]

theorem searchRecs_none_of_not_mem {rs : List Rec} {key : List Nat}
    (h : key ∉ recsKeys rs) : searchRecs rs key = none := by
  induction rs with
  | nil => rfl
  | cons r rs ih =>
    obtain ⟨k, v⟩ := r
    simp only [recsKeys, List.map_cons, List.mem_cons] at h
    push_neg at h
    have hne : ¬ k = key := fun hh => h.1 hh.symm
    simp only [searchRecs, if_neg hne]
    exact ih (by simpa [recsKeys] using h.2)

theorem searchRecs_append_right {xs : List Rec} {key : List Nat}
    (h : key ∉ recsKeys xs) (ys : List Rec) :
    searchRecs (xs ++ ys) key = searchRecs ys key := by
  induction xs with
  | nil => rfl
  | cons r rs ih =>
    obtain ⟨k, v⟩ := r
    simp only [recsKeys, List.map_cons, List.mem_cons] at h
    push_neg at h
    have hne : ¬ k = key := fun hh => h.1 hh.symm
    simp only [List.cons_append, searchRecs, if_neg hne]
    exact ih (by simpa [recsKeys] using h.2)

theorem searchRecs_self (key v : List Nat) (rs : List Rec) :
    searchRecs ((key, v) :: rs) key = some v := by
  simp [searchRecs]

theorem mem_recsKeys_decomp {rs : List Rec} {key : List Nat}
    (h : key ∈ recsKeys rs) :
    ∃ pre v0 post, rs = pre ++ (key, v0) :: post ∧ key ∉ recsKeys pre := by
  induction rs with
  | nil => simp [recsKeys] at h
  | cons r rs ih =>
    obtain ⟨k, v⟩ := r
    by_cases hk : k = key
    · subst hk
      exact ⟨[], v, rs, rfl, by simp [recsKeys]⟩
    · have h2 : key ∈ recsKeys rs := by
        simp only [recsKeys, List.map_cons, List.mem_cons] at h
        rcases h with h | h
        · exact absurd h.symm hk
        · simpa [recsKeys] using h
      obtain ⟨pre, v0, post, hrs, hpre⟩ := ih h2
      refine ⟨(k, v) :: pre, v0, post, by rw [hrs]; rfl, ?_⟩
      simp only [recsKeys, List.map_cons, List.mem_cons]
      push_neg
      exact ⟨fun hh => hk hh.symm, by simpa [recsKeys] using hpre⟩

theorem eraseKey_decomp {pre post : List Rec} {key v0 : List Nat}
    (hpre : key ∉ recsKeys pre) :
    eraseKey (pre ++ (key, v0) :: post) key = pre ++ post := by
  induction pre with
  | nil => simp [eraseKey]
  | cons r rs ih =>
    obtain ⟨k, v⟩ := r
    simp only [recsKeys, List.map_cons, List.mem_cons] at hpre
    push_neg at hpre
    have hne : ¬ k = key := fun hh => hpre.1 hh.symm
    show (if k = key then rs ++ (key, v0) :: post
      else (k, v) :: eraseKey (rs ++ (key, v0) :: post) key) = (k, v) :: (rs ++ post)
    rw [if_neg hne, ih (by simpa [recsKeys] using hpre.2)]

theorem eraseKey_not_mem {rs : List Rec} {key : List Nat}
    (h : key ∉ recsKeys rs) : eraseKey rs key = rs := by
  induction rs with
  | nil => rfl
  | cons r rs ih =>
    obtain ⟨k, v⟩ := r
    simp only [recsKeys, List.map_cons, List.mem_cons] at h
    push_neg at h
    have hne : ¬ k = key := fun hh => h.1 hh.symm
    show (if k = key then rs else (k, v) :: eraseKey rs key) = (k, v) :: rs
    rw [if_neg hne, ih (by simpa [recsKeys] using h.2)]

theorem eraseKey_cons_ne {k key : List Nat} (h : k ≠ key) (v : List Nat)
    (rs : List Rec) :
    eraseKey ((k, v) :: rs) key = (k, v) :: eraseKey rs key := by
  show (if k = key then rs else (k, v) :: eraseKey rs key) = _
  rw [if_neg h]

theorem eraseKey_cons_self (key v : List Nat) (rs : List Rec) :
    eraseKey ((key, v) :: rs) key = rs := by
  show (if key = key then rs else (key, v) :: eraseKey rs key) = rs
  rw [if_pos rfl]

theorem nodup_middle_not_mem {xs ys : List (List Nat)} {key : List Nat}
    (h : (xs ++ key :: ys).Nodup) : key ∉ xs ∧ key ∉ ys := by
  have h2 := List.nodup_middle.mp h
  simp only [List.nodup_cons, List.mem_append] at h2
  push_neg at h2
  exact ⟨h2.1.1, h2.1.2⟩

/-! ## Storage-level operation specifications -/

theorem loadPage_cached {s : Storage} {pageID : Nat} {p : Page}
    (h : cacheLookup s.pages pageID = some p) :
    s.loadPage pageID = (s, .ok p) := by
  rw [Storage.loadPage, h]

theorem searchPages_spec {s : Storage} {recsOf : Nat → List Rec}
    (h : StorageRepr s recsOf) (recordSize : Nat) :
    ∀ n pageID, pageID + n = s.totalPages →
    (s.searchPages recordSize pageID n = (s, none) ∧
      ∀ id, pageID ≤ id → id < s.totalPages →
        ¬ 2 + recsSize (recsOf id) + recordSize ≤ PageSize) ∨
    (∃ id page, s.searchPages recordSize pageID n = (s, some page) ∧
      cacheLookup s.pages id = some page ∧ id < s.totalPages ∧
      2 + recsSize (recsOf id) + recordSize ≤ PageSize) := by
  intro n
  induction n with
  | zero =>
    intro pageID hn
    left
    exact ⟨rfl, fun id hle hlt => absurd hlt (by omega)⟩
  | succ n ih =>
    intro pageID hn
    have hlt : pageID < s.totalPages := by omega
    obtain ⟨page, hpage⟩ := Option.isSome_iff_exists.mp ((h.cacheDom pageID).mp hlt)
    have hwf := (h.pageWF pageID page hpage).1
    have hstep : s.searchPages recordSize pageID (n + 1) =
        if 2 + recsSize (recsOf pageID) + recordSize ≤ PageSize then (s, some page)
        else s.searchPages recordSize (pageID + 1) n := by
      rw [show s.searchPages recordSize pageID (n + 1) =
        (match s.loadPage pageID with
        | (s1, .error _) => s1.searchPages recordSize (pageID + 1) n
        | (s1, .ok page) =>
          if estimateUsed page.Data 2 page.RecordCount + recordSize ≤ page.Data.length
          then (s1, some page)
          else s1.searchPages recordSize (pageID + 1) n) from rfl]
      rw [loadPage_cached hpage]
      show (if estimateUsed page.Data 2 page.RecordCount + recordSize ≤ page.Data.length
        then (s, some page)
        else s.searchPages recordSize (pageID + 1) n) = _
      rw [estimateUsed_of_pageWF hwf, hwf.1]
    rw [hstep]
    by_cases hfit : 2 + recsSize (recsOf pageID) + recordSize ≤ PageSize
    · right
      exact ⟨pageID, page, by rw [if_pos hfit], hpage, hlt, hfit⟩
    · rw [if_neg hfit]
      rcases ih (pageID + 1) (by omega) with ⟨hrun, hall⟩ | ⟨id, page2, hrun, hp2, hlt2, hfit2⟩
      · left
        refine ⟨hrun, ?_⟩
        intro id hle hlt3
        by_cases hid : id = pageID
        · subst hid
          exact hfit
        · exact hall id (by omega) hlt3
      · right
        exact ⟨id, page2, hrun, hp2, hlt2, hfit2⟩

theorem cacheInsert_cacheInsert (l : List (Nat × Page)) (id : Nat) (p q : Page) :
    cacheInsert (cacheInsert l id p) id q = cacheInsert l id q := by
  induction l with
  | nil => simp [cacheInsert]
  | cons kp rest ih =>
    obtain ⟨k, r⟩ := kp
    by_cases hk : k = id
    · simp [cacheInsert, hk]
    · simp [cacheInsert, hk, ih]

/-- Rebuilding the invariant after replacing the cached page `pid` (an id already
below `totalPages`) with a well-formed page holding `recs'`, under a possibly
updated index `idx'`. -/
theorem repr_update_page {s : Storage} {recsOf : Nat → List Rec}
    (h : StorageRepr s recsOf) {pid : Nat} {p' : Page} {recs' : List Rec}
    {idx' : List (List Nat × Nat)}
    (hlt : pid < s.totalPages)
    (hwf : PageWF p' recs') (hid : p'.ID = pid)
    (hnodup : (recsKeys recs').Nodup)
    (hidxnodup : (idx'.map Prod.fst).Nodup)
    (hsound_pid : ∀ k, k ∈ recsKeys recs' → indexLookup idx' k = some pid)
    (hsound_other : ∀ id k, id ≠ pid → k ∈ recsKeys (recsOf id) →
      indexLookup idx' k = some id)
    (hrange : ∀ k id, indexLookup idx' k = some id → id < s.totalPages)
    (hnew : ∀ k, k ∈ recsKeys recs' → ∀ id, id ≠ pid → k ∉ recsKeys (recsOf id)) :
    StorageRepr { s with pages := cacheInsert s.pages pid p', pageIndex := idx' }
      (fun id => if id = pid then recs' else recsOf id) := by
  refine ⟨h.meta, hidxnodup, cacheNodup_insert pid p' h.cacheNodup, ?_, ?_, ?_, ?_, ?_, ?_, ?_⟩
  · intro id
    by_cases hidp : id = pid
    · subst hidp
      simp [cacheLookup_insert_self, hlt]
    · rw [show cacheLookup (cacheInsert s.pages pid p') id = cacheLookup s.pages id
        from cacheLookup_insert_ne _ _ (fun hh => hidp hh.symm)]
      exact h.cacheDom id
  · intro id p hp
    by_cases hidp : id = pid
    · subst hidp
      rw [cacheLookup_insert_self] at hp
      cases hp
      simpa using ⟨hwf, hid⟩
    · rw [show cacheLookup (cacheInsert s.pages pid p') id = cacheLookup s.pages id
        from cacheLookup_insert_ne _ _ (fun hh => hidp hh.symm)] at hp
      simpa [hidp] using h.pageWF id p hp
  · intro id hge
    have hge2 : s.totalPages ≤ id := hge
    have hidp : id ≠ pid := by omega
    simpa [hidp] using h.recsEmpty id hge2
  · intro id
    by_cases hidp : id = pid
    · simpa [hidp] using hnodup
    · simpa [hidp] using h.keysNodup id
  · intro id1 id2 k hne hk1
    by_cases h1 : id1 = pid
    · simp only [if_pos h1] at hk1
      by_cases h2 : id2 = pid
      · exact absurd (h1.trans h2.symm) hne
      · simpa [h2] using hnew k hk1 id2 h2
    · simp only [if_neg h1] at hk1
      by_cases h2 : id2 = pid
      · simp only [if_pos h2]
        intro hk2
        exact hnew k hk2 id1 h1 hk1
      · simpa [h2] using h.keysDisj id1 id2 k hne hk1
  · intro id k hk
    by_cases hidp : id = pid
    · simp only [if_pos hidp] at hk
      rw [hidp]
      exact hsound_pid k hk
    · simp only [if_neg hidp] at hk
      exact hsound_other id k hidp hk
  · intro k id hk
    exact hrange k id hk

/-- Rebuilding the invariant after `allocateNewPage` put a well-formed page with
records `recs'` at the fresh id `s.totalPages`, under a possibly updated index. -/
theorem repr_alloc_page {s : Storage} {recsOf : Nat → List Rec}
    (h : StorageRepr s recsOf) {p' : Page} {recs' : List Rec}
    {idx' : List (List Nat × Nat)}
    (hwf : PageWF p' recs') (hid : p'.ID = s.totalPages)
    (hnodup : (recsKeys recs').Nodup)
    (hidxnodup : (idx'.map Prod.fst).Nodup)
    (hsound_pid : ∀ k, k ∈ recsKeys recs' → indexLookup idx' k = some s.totalPages)
    (hsound_other : ∀ id k, id ≠ s.totalPages → k ∈ recsKeys (recsOf id) →
      indexLookup idx' k = some id)
    (hrange : ∀ k id, indexLookup idx' k = some id → id < s.totalPages + 1)
    (hnew : ∀ k, k ∈ recsKeys recs' → ∀ id, id ≠ s.totalPages →
      k ∉ recsKeys (recsOf id)) :
    StorageRepr
      { s with
          pages := cacheInsert s.pages s.totalPages p',
          pageIndex := idx',
          nextPageID := s.nextPageID + 1,
          totalPages := s.totalPages + 1 }
      (fun id => if id = s.totalPages then recs' else recsOf id) := by
  refine ⟨by simpa using h.meta, hidxnodup,
    cacheNodup_insert _ p' h.cacheNodup, ?_, ?_, ?_, ?_, ?_, ?_, ?_⟩
  · intro id
    by_cases hidp : id = s.totalPages
    · subst hidp
      simp [cacheLookup_insert_self]
    · rw [show cacheLookup (cacheInsert s.pages s.totalPages p') id
        = cacheLookup s.pages id from cacheLookup_insert_ne _ _ (fun hh => hidp hh.symm)]
      constructor
      · intro hlt
        have hlt2 : id < s.totalPages + 1 := hlt
        exact (h.cacheDom id).mp (by omega)
      · intro hsome
        have := (h.cacheDom id).mpr hsome
        show id < s.totalPages + 1
        omega
  · intro id p hp
    by_cases hidp : id = s.totalPages
    · subst hidp
      rw [cacheLookup_insert_self] at hp
      cases hp
      simpa using ⟨hwf, hid⟩
    · rw [show cacheLookup (cacheInsert s.pages s.totalPages p') id
        = cacheLookup s.pages id from cacheLookup_insert_ne _ _ (fun hh => hidp hh.symm)] at hp
      simpa [hidp] using h.pageWF id p hp
  · intro id hge
    have hge2 : s.totalPages + 1 ≤ id := hge
    have hidp : id ≠ s.totalPages := by omega
    simpa [hidp] using h.recsEmpty id (by omega)
  · intro id
    by_cases hidp : id = s.totalPages
    · simpa [hidp] using hnodup
    · simpa [hidp] using h.keysNodup id
  · intro id1 id2 k hne hk1
    by_cases h1 : id1 = s.totalPages
    · subst h1
      simp only [if_pos rfl] at hk1
      by_cases h2 : id2 = s.totalPages
      · exact absurd h2.symm hne
      · simpa [h2] using hnew k hk1 id2 h2
    · simp only [if_neg h1] at hk1
      by_cases h2 : id2 = s.totalPages
      · subst h2
        simp only [if_pos rfl]
        intro hk2
        exact hnew k hk2 id1 h1 hk1
      · simpa [h2] using h.keysDisj id1 id2 k hne hk1
  · intro id k hk
    by_cases hidp : id = s.totalPages
    · subst hidp
      simp only [if_pos rfl] at hk
      exact hsound_pid k hk
    · simp only [if_neg hidp] at hk
      exact hsound_other id k hidp hk
  · intro k id hk
    exact hrange k id hk

theorem recsKeys_single (k v : List Nat) : recsKeys [(k, v)] = [k] := rfl

theorem nodup_keys_concat {rs : List Rec} {key value : List Nat}
    (h1 : (recsKeys rs).Nodup) (h2 : key ∉ recsKeys rs) :
    (recsKeys (rs ++ [(key, value)])).Nodup := by
  rw [recsKeys_append, recsKeys_single]
  simp [List.nodup_append, h1, h2]

theorem eraseKey_sublist (rs : List Rec) (key : List Nat) :
    List.Sublist (eraseKey rs key) rs := by
  induction rs with
  | nil => simp [eraseKey]
  | cons r rest ih =>
    obtain ⟨k, v⟩ := r
    by_cases hk : k = key
    · simp only [eraseKey, if_pos hk]
      exact List.sublist_cons_self _ _
    · simp only [eraseKey, if_neg hk]
      exact List.Sublist.cons₂ _ ih

theorem mem_keys_of_mem_eraseKey {rs : List Rec} {key k : List Nat}
    (h : k ∈ recsKeys (eraseKey rs key)) : k ∈ recsKeys rs :=
  (List.Sublist.map Prod.fst (eraseKey_sublist rs key)).subset h

theorem indexLookup_insert (l : List (List Nat × Nat)) (key : List Nat) (v : Nat)
    (k : List Nat) :
    indexLookup (indexInsert l key v) k = if k = key then some v else indexLookup l k := by
  by_cases hk : k = key
  · subst hk
    simp [indexLookup_insert_self]
  · rw [if_neg hk]
    exact indexLookup_insert_ne l v (fun hh => hk hh.symm)

theorem addRecord_ok_exists {p : Page} {recs : List Rec} (h : PageWF p recs)
    {k v : List Nat}
    (hfit : 2 + recsSize recs + (4 + k.length + v.length) ≤ PageSize) :
    ∃ p', p.addRecord k v = .ok p' ∧ PageWF p' (recs ++ [(k, v)]) ∧
      p'.ID = p.ID ∧ p'.IsDirty = true :=
  ⟨_, (addRecord_ok_of_pageWF h hfit).1, (addRecord_ok_of_pageWF h hfit).2, rfl, rfl⟩

theorem allocateNewPage_exists (s : Storage) :
    ∃ p, s.allocateNewPage =
      ({ s with
          pages := cacheInsert s.pages s.nextPageID p,
          nextPageID := s.nextPageID + 1,
          totalPages := s.totalPages + 1 }, p) ∧
      PageWF p [] ∧ p.ID = s.nextPageID ∧ p.IsDirty = true :=
  ⟨_, rfl, allocPage_wf s.nextPageID, rfl, rfl⟩

/-- The shared tail of `Put`'s update path, entered after the `deleteRecord` call
has left `page1` holding exactly `recs1 = eraseKey (recsOf pid) key`. -/
theorem Put_update_core {s : Storage} {recsOf : Nat → List Rec}
    (h : StorageRepr s recsOf) {key value : List Nat} {pid : Nat}
    {page page1 : Page} {recs1 : List Rec} {found : Bool}
    (hidx : indexLookup s.pageIndex key = some pid)
    (hpage : cacheLookup s.pages pid = some page)
    (hdel : page.deleteRecord key = (page1, found))
    (hwf1 : PageWF page1 recs1)
    (hid1 : page1.ID = pid)
    (herase : eraseKey (recsOf pid) key = recs1)
    (hnodup1 : (recsKeys recs1).Nodup)
    (hkeyout1 : key ∉ recsKeys recs1)
    (hsub1 : ∀ k, k ∈ recsKeys recs1 → k ∈ recsKeys (recsOf pid))
    (hkey_elsewhere : ∀ id, id ≠ pid → key ∉ recsKeys (recsOf id)) :
    PutSpecShape s recsOf key value := by
  have hpidlt : pid < s.totalPages := h.indexRange key pid hidx
  by_cases hfit : 2 + recsSize recs1 + (4 + key.length + value.length) ≤ PageSize
  · obtain ⟨page2, hadd, hwf2, hid2, hdirty2⟩ := addRecord_ok_exists hwf1 hfit
    have hput : s.Put key value =
        ({ s with pages := cacheInsert s.pages pid page2 }, .ok ()) := by
      simp only [Storage.Put, hidx, loadPage_cached hpage, hdel, hadd,
        cacheInsert_cacheInsert]
    have hrepr := repr_update_page h hpidlt hwf2 (hid2.trans hid1)
      (nodup_keys_concat hnodup1 hkeyout1)
      h.indexNodup
      (by
        intro k hk
        rw [recsKeys_append, recsKeys_single, List.mem_append] at hk
        rcases hk with hk | hk
        · exact h.indexSound pid k (hsub1 k hk)
        · rw [List.mem_singleton] at hk
          subst hk
          exact hidx)
      (fun id k _ hk => h.indexSound id k hk)
      (fun k id hk => h.indexRange k id hk)
      (by
        intro k hk id hne
        rw [recsKeys_append, recsKeys_single, List.mem_append] at hk
        rcases hk with hk | hk
        · exact h.keysDisj pid id k (fun hh => hne hh.symm) (hsub1 k hk)
        · rw [List.mem_singleton] at hk
          subst hk
          exact hkey_elsewhere id hne)
    refine ⟨fun id => if id = pid then recs1 ++ [(key, value)] else recsOf id,
      by rw [hput]; exact hrepr, by rw [hput], fun k _ => by rw [hput], ?_, ?_, ?_, ?_⟩
    · intro _
      refine ⟨pid, by rw [hput]; exact hidx, by simp [herase],
        ⟨page2, by rw [hput]; exact cacheLookup_insert_self _ _ _, hdirty2⟩,
        ?_, ?_, ?_⟩
      · intro id hne
        simp [hne]
      · intro pid0 h0
        rw [hidx] at h0
        exact Option.some.inj h0
      · exact Or.inl ⟨hpidlt, by rw [hput]⟩
    · intro hne
      exact absurd (by rw [hput]) hne
    · intro hnone
      rw [hidx] at hnone
      exact absurd hnone (by simp)
    · intro pid2 hidx2
      rw [hidx] at hidx2
      have hpp : pid = pid2 := by injection hidx2
      subst hpp
      rw [hput, herase]
      exact ⟨fun _ => hfit, fun _ => rfl⟩
  · have hps : PageSize = 4096 := rfl
    have hadd : page1.addRecord key value =
        .error "page full: not enough space for record" :=
      addRecord_full_of_pageWF hwf1 (by omega)
    have hput : s.Put key value =
        ({ s with pages := cacheInsert s.pages pid page1 },
          .error "page full: not enough space for record") := by
      simp only [Storage.Put, hidx, loadPage_cached hpage, hdel, hadd]
    have hrepr := repr_update_page h hpidlt hwf1 hid1
      hnodup1 h.indexNodup
      (fun k hk => h.indexSound pid k (hsub1 k hk))
      (fun id k _ hk => h.indexSound id k hk)
      (fun k id hk => h.indexRange k id hk)
      (fun k hk id hne => h.keysDisj pid id k (fun hh => hne hh.symm) (hsub1 k hk))
    refine ⟨fun id => if id = pid then recs1 else recsOf id,
      by rw [hput]; exact hrepr, by rw [hput], fun k _ => by rw [hput], ?_, ?_, ?_, ?_⟩
    · intro hok
      rw [hput] at hok
      exact absurd hok (by simp)
    · intro _
      refine ⟨by rw [hput], by rw [hput], ?_, ?_⟩
      · intro pid2 hidx2
        rw [hidx] at hidx2
        have hpp : pid = pid2 := by injection hidx2
        subst hpp
        refine ⟨by simp [herase], ?_, by rw [hput]⟩
        intro id hne
        simp [hne]
      · intro hnone
        rw [hidx] at hnone
        exact absurd hnone (by simp)
    · intro hnone
      rw [hidx] at hnone
      exact absurd hnone (by simp)
    · intro pid2 hidx2
      rw [hidx] at hidx2
      have hpp : pid = pid2 := by injection hidx2
      subst hpp
      rw [hput, herase]
      constructor
      · intro hok
        exact absurd hok (by simp)
      · intro hh
        exact absurd hh hfit

/-- Full characterization of `Storage.Put` on a state satisfying the invariant
(see `PutSpecShape`). -/
theorem Put_spec {s : Storage} {recsOf : Nat → List Rec} (h : StorageRepr s recsOf)
    (key value : List Nat) : PutSpecShape s recsOf key value := by
  cases hidx : indexLookup s.pageIndex key with
  | some pid =>
    have hpidlt : pid < s.totalPages := h.indexRange key pid hidx
    obtain ⟨page, hpage⟩ := Option.isSome_iff_exists.mp ((h.cacheDom pid).mp hpidlt)
    obtain ⟨hwf, hpid⟩ := h.pageWF pid page hpage
    have hkey_elsewhere : ∀ id, id ≠ pid → key ∉ recsKeys (recsOf id) := by
      intro id hne hk
      have hsound := h.indexSound id key hk
      rw [hidx] at hsound
      have heq : pid = id := by injection hsound
      exact hne heq.symm
    by_cases hmem : key ∈ recsKeys (recsOf pid)
    · obtain ⟨pre, v0, post, hdecomp, hpre⟩ := mem_recsKeys_decomp hmem
      obtain ⟨page1, hdel, hwf1, hid1, _⟩ :=
        deleteRecord_found_of_pageWF (p := page) (hdecomp ▸ hwf) hpre
      have herase : eraseKey (recsOf pid) key = pre ++ post := by
        rw [hdecomp]
        exact eraseKey_decomp hpre
      have hkeysnd : (recsKeys pre ++ key :: recsKeys post).Nodup := by
        have hnd := h.keysNodup pid
        rw [hdecomp] at hnd
        simpa [recsKeys_append, recsKeys] using hnd
      have hnm := nodup_middle_not_mem hkeysnd
      have hkey_erased : key ∉ recsKeys (pre ++ post) := by
        rw [recsKeys_append]
        simp only [List.mem_append]
        push_neg
        exact hnm
      have hnodup_erased : (recsKeys (pre ++ post)).Nodup := by
        have hmid := List.nodup_middle.mp hkeysnd
        have := (List.nodup_cons.mp hmid).2
        simpa [recsKeys_append] using this
      have hsub_erased : ∀ k, k ∈ recsKeys (pre ++ post) → k ∈ recsKeys (recsOf pid) := by
        intro k hk
        rw [← herase] at hk
        exact mem_keys_of_mem_eraseKey hk
      exact Put_update_core h hidx hpage hdel hwf1 (hid1.trans hpid) herase
        hnodup_erased hkey_erased hsub_erased hkey_elsewhere
    · exact Put_update_core h hidx hpage
        (deleteRecord_not_mem_of_pageWF hwf hmem) hwf hpid
        (eraseKey_not_mem hmem) (h.keysNodup pid) hmem (fun k hk => hk)
        hkey_elsewhere
  | none =>
    have hps : PageSize = 4096 := rfl
    have hkey_nowhere : ∀ id, key ∉ recsKeys (recsOf id) := by
      intro id hk
      have hsound := h.indexSound id key hk
      rw [hidx] at hsound
      exact absurd hsound (by simp)
    rcases searchPages_spec h (4 + key.length + value.length) s.totalPages 0 (by omega)
      with ⟨hrun, hall⟩ | ⟨tid, tpage, hrun, htp, htlt, htfit⟩
    · -- no existing page has room: allocate a fresh page
      obtain ⟨pageA, halloc, hwfA, hidA, _⟩ := allocateNewPage_exists s
      have hidA2 : pageA.ID = s.totalPages := hidA.trans h.meta
      by_cases hfit : 2 + (4 + key.length + value.length) ≤ PageSize
      · obtain ⟨page2, hadd, hwf2, hid2, hdirty2⟩ := addRecord_ok_exists hwfA
          (by simpa [recsSize] using hfit)
        have hput : s.Put key value =
            ({ s with
                pages := cacheInsert s.pages s.totalPages page2,
                pageIndex := indexInsert s.pageIndex key s.totalPages,
                nextPageID := s.nextPageID + 1,
                totalPages := s.totalPages + 1 }, .ok ()) := by
          simp only [Storage.Put, hidx, hrun, halloc, hadd, hidA2, h.meta,
            cacheInsert_cacheInsert]
        have hwf2b : PageWF page2 [(key, value)] := by
          simpa using hwf2
        have hrepr := repr_alloc_page h hwf2b (hid2.trans hidA2)
          (by simp [recsKeys_single])
          (indexNodup_insert key s.totalPages h.indexNodup)
          (by
            intro k hk
            rw [recsKeys_single, List.mem_singleton] at hk
            subst hk
            exact indexLookup_insert_self _ _ _)
          (by
            intro id k hne hk
            have hkk : k ≠ key := fun hh => hkey_nowhere id (hh ▸ hk)
            rw [indexLookup_insert, if_neg hkk]
            exact h.indexSound id k hk)
          (by
            intro k id hk
            rw [indexLookup_insert] at hk
            by_cases hkk : k = key
            · rw [if_pos hkk] at hk
              have : s.totalPages = id := by injection hk
              omega
            · rw [if_neg hkk] at hk
              have := h.indexRange k id hk
              omega)
          (by
            intro k hk id _
            rw [recsKeys_single, List.mem_singleton] at hk
            subst hk
            exact hkey_nowhere id)
        refine ⟨fun id => if id = s.totalPages then [(key, value)] else recsOf id,
          by rw [hput]; exact hrepr, by rw [hput], ?_, ?_, ?_, ?_, ?_⟩
        · intro k hk
          rw [hput]
          show indexLookup (indexInsert s.pageIndex key s.totalPages) k = _
          rw [indexLookup_insert, if_neg hk]
        · intro _
          refine ⟨s.totalPages, by rw [hput]; exact indexLookup_insert_self _ _ _,
            by simp [h.recsEmpty s.totalPages (le_refl _), eraseKey],
            ⟨page2, by rw [hput]; exact cacheLookup_insert_self _ _ _, hdirty2⟩,
            ?_, ?_, ?_⟩
          · intro id hne
            simp [hne]
          · intro pid0 h0
            rw [hidx] at h0
            exact absurd h0 (by simp)
          · refine Or.inr ⟨rfl, by rw [hput], hidx, ?_⟩
            intro id hlt2
            exact hall id (Nat.zero_le id) hlt2
        · intro hne
          exact absurd (by rw [hput]) hne
        · intro _
          rw [hput]
          exact ⟨fun _ => hfit, fun _ => rfl⟩
        · intro pid2 hidx2
          rw [hidx] at hidx2
          exact absurd hidx2 (by simp)
      · have hadd : pageA.addRecord key value =
            .error "page full: not enough space for record" :=
          addRecord_full_of_pageWF hwfA (by simp only [recsSize]; omega)
        have hput : s.Put key value =
            ({ s with
                pages := cacheInsert s.pages s.totalPages pageA,
                nextPageID := s.nextPageID + 1,
                totalPages := s.totalPages + 1 },
              .error "page full: not enough space for record") := by
          simp only [Storage.Put, hidx, hrun, halloc, hadd, hidA2, h.meta]
        have hrepr := repr_alloc_page h hwfA hidA2
          (by simp [recsKeys])
          h.indexNodup
          (by intro k hk; simp [recsKeys] at hk)
          (fun id k _ hk => h.indexSound id k hk)
          (by
            intro k id hk
            have := h.indexRange k id hk
            omega)
          (by intro k hk; simp [recsKeys] at hk)
        refine ⟨fun id => if id = s.totalPages then [] else recsOf id,
          by rw [hput]; exact hrepr, by rw [hput], fun k _ => by rw [hput], ?_, ?_, ?_, ?_⟩
        · intro hok
          rw [hput] at hok
          exact absurd hok (by simp)
        · intro _
          refine ⟨by rw [hput], by rw [hput], ?_, ?_⟩
          · intro pid2 hidx2
            rw [hidx] at hidx2
            exact absurd hidx2 (by simp)
          · intro _
            refine ⟨?_, by rw [hput]⟩
            intro id
            by_cases hid : id = s.totalPages
            · subst hid
              simp [h.recsEmpty s.totalPages (le_refl _)]
            · simp [hid]
        · intro _
          rw [hput]
          constructor
          · intro hok
            exact absurd hok (by simp)
          · intro hh
            exact absurd hh hfit
        · intro pid2 hidx2
          rw [hidx] at hidx2
          exact absurd hidx2 (by simp)
    · -- first-fit found page tid
      obtain ⟨hwfT, hidT⟩ := h.pageWF tid tpage htp
      obtain ⟨page2, hadd, hwf2, hid2, hdirty2⟩ := addRecord_ok_exists hwfT htfit
      have hput : s.Put key value =
          ({ s with
              pages := cacheInsert s.pages tid page2,
              pageIndex := indexInsert s.pageIndex key tid }, .ok ()) := by
        simp only [Storage.Put, hidx, hrun, hadd, hidT]
      have hrepr := repr_update_page h htlt hwf2 (hid2.trans hidT)
        (nodup_keys_concat (h.keysNodup tid) (hkey_nowhere tid))
        (indexNodup_insert key tid h.indexNodup)
        (by
          intro k hk
          rw [recsKeys_append, recsKeys_single, List.mem_append] at hk
          rcases hk with hk | hk
          · have hkk : k ≠ key := fun hh => hkey_nowhere tid (hh ▸ hk)
            rw [indexLookup_insert, if_neg hkk]
            exact h.indexSound tid k hk
          · rw [List.mem_singleton] at hk
            subst hk
            exact indexLookup_insert_self _ _ _)
        (by
          intro id k hne hk
          have hkk : k ≠ key := fun hh => hkey_nowhere id (hh ▸ hk)
          rw [indexLookup_insert, if_neg hkk]
          exact h.indexSound id k hk)
        (by
          intro k id hk
          rw [indexLookup_insert] at hk
          by_cases hkk : k = key
          · rw [if_pos hkk] at hk
            have : tid = id := by injection hk
            omega
          · rw [if_neg hkk] at hk
            exact h.indexRange k id hk)
        (by
          intro k hk id hne
          rw [recsKeys_append, recsKeys_single, List.mem_append] at hk
          rcases hk with hk | hk
          · exact h.keysDisj tid id k (fun hh => hne hh.symm) hk
          · rw [List.mem_singleton] at hk
            subst hk
            exact hkey_nowhere id)
      refine ⟨fun id => if id = tid then recsOf tid ++ [(key, value)] else recsOf id,
        by rw [hput]; exact hrepr, by rw [hput], ?_, ?_, ?_, ?_, ?_⟩
      · intro k hk
        rw [hput]
        show indexLookup (indexInsert s.pageIndex key tid) k = _
        rw [indexLookup_insert, if_neg hk]
      · intro _
        refine ⟨tid, by rw [hput]; exact indexLookup_insert_self _ _ _,
          by simp [eraseKey_not_mem (hkey_nowhere tid)],
          ⟨page2, by rw [hput]; exact cacheLookup_insert_self _ _ _, hdirty2⟩,
          ?_, ?_, ?_⟩
        · intro id hne
          simp [hne]
        · intro pid0 h0
          rw [hidx] at h0
          exact absurd h0 (by simp)
        · exact Or.inl ⟨htlt, by rw [hput]⟩
      · intro hne
        exact absurd (by rw [hput]) hne
      · intro _
        rw [hput]
        refine ⟨fun _ => by omega, fun _ => rfl⟩
      · intro pid2 hidx2
        rw [hidx] at hidx2
        exact absurd hidx2 (by simp)

/-! ## Get and Delete specifications -/

theorem storageRepr_congr {s t : Storage} {recsOf : Nat → List Rec}
    (h : StorageRepr s recsOf)
    (hidx : t.pageIndex = s.pageIndex) (hpages : t.pages = s.pages)
    (hnext : t.nextPageID = s.nextPageID) (htot : t.totalPages = s.totalPages) :
    StorageRepr t recsOf := by
  refine ⟨by rw [hnext, htot]; exact h.meta,
    by rw [hidx]; exact h.indexNodup,
    by rw [hpages]; exact h.cacheNodup,
    fun id => by rw [hpages, htot]; exact h.cacheDom id,
    fun id p hp => h.pageWF id p (by rw [← hpages]; exact hp),
    fun id hge => h.recsEmpty id (by rw [← htot]; exact hge),
    h.keysNodup, h.keysDisj,
    fun id k hk => by rw [hidx]; exact h.indexSound id k hk,
    fun k id hk => by rw [htot]; exact h.indexRange k id (by rw [← hidx]; exact hk)⟩

theorem Get_spec {s : Storage} {recsOf : Nat → List Rec} (h : StorageRepr s recsOf)
    (key : List Nat) :
    s.Get key = (s,
      match indexLookup s.pageIndex key with
      | none => .error "key not found"
      | some pid =>
        match searchRecs (recsOf pid) key with
        | some v => .ok v
        | none => .error "key not found in expected page") := by
  cases hidx : indexLookup s.pageIndex key with
  | none => simp only [Storage.Get, hidx]
  | some pid =>
    have hpidlt := h.indexRange key pid hidx
    obtain ⟨page, hpage⟩ := Option.isSome_iff_exists.mp ((h.cacheDom pid).mp hpidlt)
    have hwf := (h.pageWF pid page hpage).1
    simp only [Storage.Get, hidx, loadPage_cached hpage,
      findRecord_of_pageWF hwf key]
    cases searchRecs (recsOf pid) key <;> rfl

theorem Delete_none {s : Storage} {key : List Nat}
    (hidx : indexLookup s.pageIndex key = none) :
    s.Delete key = (s, .error "key not found") := by
  simp only [Storage.Delete, hidx]

theorem Delete_stale {s : Storage} {recsOf : Nat → List Rec}
    (h : StorageRepr s recsOf) {key : List Nat} {pid : Nat}
    (hidx : indexLookup s.pageIndex key = some pid)
    (hmem : key ∉ recsKeys (recsOf pid)) :
    s.Delete key = (s, .error "key not found in expected page") := by
  have hpidlt := h.indexRange key pid hidx
  obtain ⟨page, hpage⟩ := Option.isSome_iff_exists.mp ((h.cacheDom pid).mp hpidlt)
  have hwf := (h.pageWF pid page hpage).1
  simp only [Storage.Delete, hidx, loadPage_cached hpage,
    deleteRecord_not_mem_of_pageWF hwf hmem]

theorem Delete_found {s : Storage} {recsOf : Nat → List Rec}
    (h : StorageRepr s recsOf) {key : List Nat} {pid : Nat}
    (hidx : indexLookup s.pageIndex key = some pid)
    (hmem : key ∈ recsKeys (recsOf pid)) :
    (s.Delete key).2 = .ok () ∧ (s.Delete key).1.disk = s.disk ∧
      (s.Delete key).1.pageIndex = indexErase s.pageIndex key ∧
      StorageRepr (s.Delete key).1
        (fun id => if id = pid then eraseKey (recsOf pid) key else recsOf id) := by
  have hpidlt := h.indexRange key pid hidx
  obtain ⟨page, hpage⟩ := Option.isSome_iff_exists.mp ((h.cacheDom pid).mp hpidlt)
  obtain ⟨hwf, hpid⟩ := h.pageWF pid page hpage
  obtain ⟨pre, v0, post, hdecomp, hpre⟩ := mem_recsKeys_decomp hmem
  obtain ⟨page1, hdel, hwf1, hid1, _⟩ :=
    deleteRecord_found_of_pageWF (p := page) (hdecomp ▸ hwf) hpre
  have herase : eraseKey (recsOf pid) key = pre ++ post := by
    rw [hdecomp]
    exact eraseKey_decomp hpre
  have hkeysnd : (recsKeys pre ++ key :: recsKeys post).Nodup := by
    have hnd := h.keysNodup pid
    rw [hdecomp] at hnd
    simpa [recsKeys_append, recsKeys] using hnd
  have hnm := nodup_middle_not_mem hkeysnd
  have hkey_erased : key ∉ recsKeys (pre ++ post) := by
    rw [recsKeys_append]
    simp only [List.mem_append]
    push_neg
    exact hnm
  have hnodup_erased : (recsKeys (pre ++ post)).Nodup := by
    have hmid := List.nodup_middle.mp hkeysnd
    have := (List.nodup_cons.mp hmid).2
    simpa [recsKeys_append] using this
  have hdelete : s.Delete key =
      ({ s with pages := cacheInsert s.pages pid page1,
                pageIndex := indexErase s.pageIndex key }, .ok ()) := by
    simp only [Storage.Delete, hidx, loadPage_cached hpage, hdel]
  have hrepr := repr_update_page h hpidlt hwf1 (hid1.trans hpid)
      hnodup_erased (indexNodup_erase key h.indexNodup)
      (by
        intro k hk
        have hkne : k ≠ key := fun hh => hkey_erased (hh ▸ hk)
        rw [indexLookup_erase_ne _ hkne]
        exact h.indexSound pid k (by rw [← herase] at hk; exact mem_keys_of_mem_eraseKey hk))
      (by
        intro id k hne hk
        have hkne : k ≠ key := fun hh => h.keysDisj pid id key hne.symm hmem (hh ▸ hk)
        rw [indexLookup_erase_ne _ hkne]
        exact h.indexSound id k hk)
      (by
        intro k id hk
        by_cases hkk : k = key
        · rw [hkk, indexLookup_erase_self h.indexNodup] at hk
          exact absurd hk (by simp)
        · rw [indexLookup_erase_ne _ hkk] at hk
          exact h.indexRange k id hk)
      (by
        intro k hk id hne
        exact h.keysDisj pid id k (fun hh => hne hh.symm)
          (by rw [← herase] at hk; exact mem_keys_of_mem_eraseKey hk))
  rw [hdelete]
  refine ⟨rfl, rfl, rfl, ?_⟩
  have hfun : (fun id => if id = pid then eraseKey (recsOf pid) key else recsOf id)
      = (fun id => if id = pid then pre ++ post else recsOf id) := by
    funext id
    by_cases hid : id = pid
    · rw [if_pos hid, if_pos hid, herase]
    · rw [if_neg hid, if_neg hid]
  rw [hfun]
  exact hrepr

/-! ## Close preserves the invariant -/

theorem writePage_repr {s : Storage} {recsOf : Nat → List Rec}
    (h : StorageRepr s recsOf) {page : Page}
    (hwf : PageWF page (recsOf page.ID)) (hlt : page.ID < s.totalPages) :
    StorageRepr (s.writePage page) recsOf := by
  obtain ⟨hlen, hcount, hrecs⟩ := hwf
  have hps : PageSize = 4096 := rfl
  have hpu : (putU16 page.RecordCount).length = 2 := rfl
  have hw2 : 0 + (putU16 page.RecordCount).length ≤ page.Data.length := by omega
  have hwf' : PageWF
      { page with Data := writeBytes page.Data 0 (putU16 page.RecordCount),
                  IsDirty := false } (recsOf page.ID) := by
    refine ⟨by rw [length_writeBytes hw2]; exact hlen, hcount, ?_, ?_, hrecs.2.2⟩
    · rw [readBytes_writeBytes_right hw2 (by omega)]
      exact hrecs.1
    · rw [length_writeBytes hw2]
      exact hrecs.2.1
  have hrepr := repr_update_page h hlt hwf' rfl
      (h.keysNodup page.ID) h.indexNodup
      (fun k hk => h.indexSound page.ID k hk)
      (fun id k _ hk => h.indexSound id k hk)
      (fun k id hk => h.indexRange k id hk)
      (fun k hk id hne => h.keysDisj page.ID id k (fun hh => hne hh.symm) hk)
  have hfun : (fun id => if id = page.ID then recsOf page.ID else recsOf id)
      = recsOf := by
    funext id
    by_cases hid : id = page.ID
    · rw [if_pos hid, hid]
    · rw [if_neg hid]
  rw [hfun] at hrepr
  exact storageRepr_congr hrepr rfl rfl rfl rfl

theorem flushLoop_repr {recsOf : Nat → List Rec} (l : List (Nat × Page)) :
    ∀ s : Storage, StorageRepr s recsOf →
    (∀ pr, pr ∈ l → PageWF pr.2 (recsOf pr.2.ID) ∧ pr.2.ID < s.totalPages) →
    StorageRepr (s.flushLoop l) recsOf ∧
      (s.flushLoop l).pageIndex = s.pageIndex ∧
      (s.flushLoop l).totalPages = s.totalPages ∧
      (s.flushLoop l).nextPageID = s.nextPageID := by
  induction l with
  | nil =>
    intro s h _
    exact ⟨h, rfl, rfl, rfl⟩
  | cons pr rest ih =>
    intro s h hl
    obtain ⟨i, page⟩ := pr
    have hpr := hl (i, page) (List.mem_cons_self _ _)
    have hrest : ∀ pr, pr ∈ rest → PageWF pr.2 (recsOf pr.2.ID) ∧
        pr.2.ID < s.totalPages :=
      fun pr hmem => hl pr (List.mem_cons_of_mem _ hmem)
    simp only [Storage.flushLoop]
    by_cases hd : page.IsDirty
    · rw [if_pos hd]
      obtain ⟨h1, h2, h3, h4⟩ := ih (s.writePage page)
        (writePage_repr h hpr.1 hpr.2) hrest
      exact ⟨h1, h2, h3, h4⟩
    · rw [if_neg hd]
      exact ih s h hrest

theorem Close_repr {s : Storage} {recsOf : Nat → List Rec}
    (h : StorageRepr s recsOf) :
    StorageRepr s.Close recsOf ∧ s.Close.pageIndex = s.pageIndex ∧
      s.Close.totalPages = s.totalPages := by
  have hl : ∀ pr, pr ∈ s.pages → PageWF pr.2 (recsOf pr.2.ID) ∧
      pr.2.ID < s.totalPages := by
    intro pr hmem
    obtain ⟨i, p⟩ := pr
    have hlk : cacheLookup s.pages i = some p := cacheLookup_of_mem h.cacheNodup hmem
    obtain ⟨hwf, hid⟩ := h.pageWF i p hlk
    refine ⟨by rw [hid]; exact hwf, ?_⟩
    rw [hid]
    exact (h.cacheDom i).mpr (by rw [hlk]; rfl)
  obtain ⟨hrepr, hidx, htot, hnext⟩ := flushLoop_repr s.pages s h hl
  refine ⟨storageRepr_congr hrepr rfl rfl rfl rfl, hidx, htot⟩

/-! ## The invariant holds in every reachable state -/

theorem init_repr : StorageRepr Storage.init (fun _ => []) := by
  refine ⟨rfl, ?_, ?_, ?_, ?_, fun _ _ => rfl, ?_, ?_, ?_, ?_⟩
  · simp [Storage.init]
  · simp [Storage.init]
  · intro id
    simp [Storage.init, cacheLookup]
  · intro id p hp
    simp [Storage.init, cacheLookup] at hp
  · intro id
    simp [recsKeys]
  · intro id1 id2 k _ hk1
    simp [recsKeys] at hk1
  · intro id k hk
    simp [recsKeys] at hk
  · intro k id hk
    simp [Storage.init, indexLookup] at hk

theorem step_repr {s : Storage} {recsOf : Nat → List Rec}
    (h : StorageRepr s recsOf) (op : Op) :
    ∃ recsOf', StorageRepr (s.step op) recsOf' := by
  cases op with
  | put k v =>
    obtain ⟨recsOf', hrepr, _⟩ := Put_spec h k v
    exact ⟨recsOf', hrepr⟩
  | get k =>
    refine ⟨recsOf, ?_⟩
    show StorageRepr (s.Get k).1 recsOf
    rw [Get_spec h k]
    exact h
  | del k =>
    cases hidx : indexLookup s.pageIndex k with
    | none =>
      refine ⟨recsOf, ?_⟩
      show StorageRepr (s.Delete k).1 recsOf
      rw [Delete_none hidx]
      exact h
    | some pid =>
      by_cases hmem : k ∈ recsKeys (recsOf pid)
      · obtain ⟨_, _, _, hrepr⟩ := Delete_found h hidx hmem
        exact ⟨_, hrepr⟩
      · refine ⟨recsOf, ?_⟩
        show StorageRepr (s.Delete k).1 recsOf
        rw [Delete_stale h hidx hmem]
        exact h
  | close =>
    exact ⟨recsOf, (Close_repr h).1⟩

theorem run_repr (ops : List Op) :
    ∀ (s : Storage) (recsOf : Nat → List Rec), StorageRepr s recsOf →
    ∃ recsOf', StorageRepr (s.run ops) recsOf' := by
  induction ops with
  | nil =>
    intro s recsOf h
    exact ⟨recsOf, h⟩
  | cons op rest ih =>
    intro s recsOf h
    obtain ⟨recsOf1, h1⟩ := step_repr h op
    exact ih (s.step op) recsOf1 h1

theorem reachable_repr {s : Storage} (h : Reachable s) :
    ∃ recsOf, StorageRepr s recsOf := by
  obtain ⟨ops, rfl⟩ := h
  exact run_repr ops Storage.init (fun _ => []) init_repr

/-! ## Frame lemmas for `Get` -/

theorem cacheExtends_refl (s : Storage) : CacheExtends s s :=
  ⟨rfl, rfl, rfl, rfl, fun _ => Or.inl rfl⟩

theorem not_mem_eraseKey_self {rs : List Rec} {key : List Nat}
    (hnd : (recsKeys rs).Nodup) : key ∉ recsKeys (eraseKey rs key) := by
  by_cases hmem : key ∈ recsKeys rs
  · obtain ⟨pre, v0, post, hdecomp, hpre⟩ := mem_recsKeys_decomp hmem
    rw [hdecomp, eraseKey_decomp hpre]
    rw [hdecomp] at hnd
    have hkeysnd : (recsKeys pre ++ key :: recsKeys post).Nodup := by
      simpa [recsKeys_append, recsKeys] using hnd
    have hnm := nodup_middle_not_mem hkeysnd
    rw [recsKeys_append]
    simp only [List.mem_append]
    push_neg
    exact hnm
  · rw [eraseKey_not_mem hmem]
    exact hmem

theorem Get_frame_aux (s : Storage) (key : List Nat) :
    CacheExtends s (s.Get key).1 ∧ (s.Get key).1.Get key = s.Get key := by
  cases hidx : indexLookup s.pageIndex key with
  | none =>
    have hget : s.Get key = (s, .error "key not found") := by
      simp only [Storage.Get, hidx]
    rw [hget]
    exact ⟨cacheExtends_refl s, hget⟩
  | some pid =>
    cases hcache : cacheLookup s.pages pid with
    | some page =>
      have hget : s.Get key = (s,
          match page.findRecord key with
          | none => .error "key not found in expected page"
          | some v => .ok v) := by
        simp only [Storage.Get, hidx, loadPage_cached hcache]
        cases page.findRecord key <;> rfl
      rw [hget]
      exact ⟨cacheExtends_refl s, hget⟩
    | none =>
      cases hdisk : s.disk.pages.get? pid with
      | none =>
        have hget : s.Get key = (s, .error "failed to read page") := by
          simp only [Storage.Get, hidx, Storage.loadPage, hcache, hdisk]
        rw [hget]
        exact ⟨cacheExtends_refl s, hget⟩
      | some pd =>
        have hload : s.loadPage pid =
            ({ s with pages := cacheInsert s.pages pid (freshLoad pid pd) },
              .ok (freshLoad pid pd)) := by
          simp only [Storage.loadPage, hcache, hdisk]
          rfl
        have hget : s.Get key =
            ({ s with pages := cacheInsert s.pages pid (freshLoad pid pd) },
              match (freshLoad pid pd).findRecord key with
              | none => .error "key not found in expected page"
              | some v => .ok v) := by
          simp only [Storage.Get, hidx, hload]
          cases (freshLoad pid pd).findRecord key <;> rfl
        have hcache2 : cacheLookup (cacheInsert s.pages pid (freshLoad pid pd)) pid
            = some (freshLoad pid pd) := cacheLookup_insert_self _ _ _
        have hload2 : Storage.loadPage
            { s with pages := cacheInsert s.pages pid (freshLoad pid pd) } pid =
            ({ s with pages := cacheInsert s.pages pid (freshLoad pid pd) },
              .ok (freshLoad pid pd)) := loadPage_cached hcache2
        constructor
        · rw [hget]
          refine ⟨rfl, rfl, rfl, rfl, ?_⟩
          intro id
          by_cases hid : id = pid
          · subst hid
            exact Or.inr ⟨hcache, pd, hdisk, hcache2⟩
          · exact Or.inl (cacheLookup_insert_ne _ _ (fun hh => hid hh.symm))
        · rw [hget]
          show Storage.Get
            { s with pages := cacheInsert s.pages pid (freshLoad pid pd) } key = _
          simp only [Storage.Get, hidx, hload2]
          cases (freshLoad pid pd).findRecord key <;> rfl

/-! ## The claims about the storage engine -/

/-- C1: in one open session, after a successful `Put key value` a `Get key`
returns exactly `value` (round-trip on states reachable from a fresh store). -/
theorem put_get_roundtrip {s : Storage} (hreach : Reachable s) (key value : List Nat)
    (hok : (s.Put key value).2 = .ok ()) :
    ((s.Put key value).1.Get key).2 = .ok value := by
  obtain ⟨recsOf, h⟩ := reachable_repr hreach
  obtain ⟨recsOf', hrepr', _, _, hsome, _⟩ := Put_spec h key value
  obtain ⟨pid, hidx', hrecs', -, -, -, -⟩ := hsome hok
  have hnd := hrepr'.keysNodup pid
  rw [hrecs', recsKeys_append, recsKeys_single, List.nodup_append] at hnd
  have hkey_not : key ∉ recsKeys (eraseKey (recsOf pid) key) :=
    fun hk => hnd.2.2 hk (List.mem_singleton_self key)
  rw [Get_spec hrepr' key]
  simp only [hidx', hrecs', searchRecs_append_right hkey_not, searchRecs_self]

/-- Witness for C1: on a fresh store, `Put [1] [2]` succeeds and the following
`Get [1]` returns `[2]`. -/
theorem put_get_roundtrip_witness :
    Reachable Storage.init ∧ (Storage.init.Put [1] [2]).2 = .ok () ∧
      ((Storage.init.Put [1] [2]).1.Get [1]).2 = .ok [2] := by
  have hreach : Reachable Storage.init := ⟨[], rfl⟩
  have hok : (Storage.init.Put [1] [2]).2 = .ok () := by
    obtain ⟨recsOf', hrepr', hdisk, hframe, hsome, hfail, hiffn, hiffs⟩ :=
      Put_spec init_repr [1] [2]
    exact (hiffn rfl).mpr (by decide)
  exact ⟨hreach, hok, put_get_roundtrip hreach [1] [2] hok⟩

/-- C8: in every state reachable from a fresh store by `Put`, `Get`, `Delete`
and `Close` operations, `nextPageID ≥ totalPages` (in fact they stay equal). -/
theorem nextPageID_ge_totalPages {s : Storage} (h : Reachable s) :
    s.totalPages ≤ s.nextPageID := by
  obtain ⟨recsOf, hr⟩ := reachable_repr h
  exact le_of_eq hr.meta.symm

/-- Witness for C8 at the freshly initialized store. -/
theorem nextPageID_ge_totalPages_witness :
    Reachable Storage.init ∧ Storage.init.totalPages ≤ Storage.init.nextPageID :=
  ⟨⟨[], rfl⟩, nextPageID_ge_totalPages ⟨[], rfl⟩⟩

/-- C7: a `Put` whose key or value exceeds 65535 bytes is rejected with an
explicit error (the page-full error, since such a record can never fit a page)
and stores nothing: a `Get` of that key afterwards cannot return the value. -/
theorem put_oversized_rejected {s : Storage} (hreach : Reachable s)
    {key value : List Nat} (hbig : 65535 < key.length ∨ 65535 < value.length) :
    (s.Put key value).2 = .error "page full: not enough space for record" ∧
      ((s.Put key value).1.Get key).2 ≠ .ok value := by
  obtain ⟨recsOf, h⟩ := reachable_repr hreach
  obtain ⟨recsOf', hrepr', _, hframe, _, hfail, hiffn, hiffs⟩ := Put_spec h key value
  have hps : PageSize = 4096 := rfl
  have hnotok : (s.Put key value).2 ≠ .ok () := by
    cases hidx : indexLookup s.pageIndex key with
    | none =>
      intro hok
      have := (hiffn hidx).mp hok
      omega
    | some pid =>
      intro hok
      have := (hiffs pid hidx).mp hok
      omega
  obtain ⟨herr, hidxeq, hsome2, hnone2⟩ := hfail hnotok
  refine ⟨herr, ?_⟩
  rw [Get_spec hrepr' key]
  cases hidx : indexLookup s.pageIndex key with
  | none =>
    simp only [hidxeq, hidx]
    simp
  | some pid =>
    obtain ⟨herase2, -, -⟩ := hsome2 pid hidx
    have hkn : key ∉ recsKeys (eraseKey (recsOf pid) key) :=
      not_mem_eraseKey_self (h.keysNodup pid)
    simp only [hidxeq, hidx, herase2, searchRecs_none_of_not_mem hkn]
    simp

/-- Witness for C7 at a 65536-byte key on a fresh store. -/
theorem put_oversized_rejected_witness :
    Reachable Storage.init ∧
      (65535 < (List.replicate 65536 0 : List Nat).length ∨
        65535 < ([] : List Nat).length) ∧
      ((Storage.init.Put (List.replicate 65536 0) []).2 =
          .error "page full: not enough space for record" ∧
        ((Storage.init.Put (List.replicate 65536 0) []).1.Get
            (List.replicate 65536 0)).2 ≠ .ok []) := by
  have hreach : Reachable Storage.init := ⟨[], rfl⟩
  have hbig : 65535 < (List.replicate 65536 (0 : Nat)).length ∨
      65535 < ([] : List Nat).length := by
    left
    rw [List.length_replicate]
    omega
  exact ⟨hreach, hbig, put_oversized_rejected hreach hbig⟩

/-! ## Concrete `Put` chains from a fresh store -/

theorem first_put_spec (key value : List Nat)
    (hfit : 2 + (4 + key.length + value.length) ≤ PageSize) :
    ∃ recsOf, StorageRepr (Storage.init.Put key value).1 recsOf ∧
      (Storage.init.Put key value).2 = .ok () ∧
      (Storage.init.Put key value).1.disk = Storage.init.disk ∧
      indexLookup (Storage.init.Put key value).1.pageIndex key = some 0 ∧
      (∀ k, k ≠ key →
        indexLookup (Storage.init.Put key value).1.pageIndex k = none) ∧
      recsOf 0 = [(key, value)] ∧
      (∀ id, id ≠ 0 → recsOf id = []) ∧
      (Storage.init.Put key value).1.totalPages = 1 ∧
      (∃ p, cacheLookup (Storage.init.Put key value).1.pages 0 = some p ∧
        p.IsDirty = true) := by
  obtain ⟨recsOf', hrepr', hdisk, hframe, hsome, hfail, hiffn, hiffs⟩ :=
    Put_spec init_repr key value
  have hidx0 : indexLookup Storage.init.pageIndex key = none := rfl
  have hok : (Storage.init.Put key value).2 = .ok () := (hiffn hidx0).mpr hfit
  obtain ⟨pid, hidx', hrecs', hdirty, hother, hpid0, hdisj⟩ := hsome hok
  have htot0 : Storage.init.totalPages = 0 := rfl
  rcases hdisj with ⟨hlt, _⟩ | ⟨heq, htp, _, _⟩
  · rw [htot0] at hlt
    exact absurd hlt (by omega)
  · rw [htot0] at heq
    subst heq
    refine ⟨recsOf', hrepr', hok, hdisk, hidx', ?_, ?_, ?_, ?_, hdirty⟩
    · intro k hk
      rw [hframe k hk]
      rfl
    · rw [hrecs']
      rfl
    · intro id hne
      rw [hother id hne]
    · rw [htp, htot0]

theorem second_put_same_page {s : Storage} {recsOf : Nat → List Rec}
    (h : StorageRepr s recsOf) {key value : List Nat}
    (hidx : indexLookup s.pageIndex key = none)
    (htot : s.totalPages = 1)
    (hfit0 : 2 + recsSize (recsOf 0) + (4 + key.length + value.length) ≤ PageSize) :
    ∃ recsOf', StorageRepr (s.Put key value).1 recsOf' ∧
      (s.Put key value).2 = .ok () ∧
      (s.Put key value).1.disk = s.disk ∧
      indexLookup (s.Put key value).1.pageIndex key = some 0 ∧
      (∀ k, k ≠ key →
        indexLookup (s.Put key value).1.pageIndex k = indexLookup s.pageIndex k) ∧
      recsOf' 0 = recsOf 0 ++ [(key, value)] ∧
      (∀ id, id ≠ 0 → recsOf' id = recsOf id) ∧
      (s.Put key value).1.totalPages = 1 ∧
      (∃ p, cacheLookup (s.Put key value).1.pages 0 = some p ∧
        p.IsDirty = true) := by
  obtain ⟨recsOf', hrepr', hdisk, hframe, hsome, hfail, hiffn, hiffs⟩ :=
    Put_spec h key value
  have hok : (s.Put key value).2 = .ok () := (hiffn hidx).mpr (by omega)
  obtain ⟨pid, hidx', hrecs', hdirty, hother, hpid0, hdisj⟩ := hsome hok
  have hkey_not : key ∉ recsKeys (recsOf 0) := by
    intro hk
    have hs := h.indexSound 0 key hk
    rw [hidx] at hs
    exact absurd hs (by simp)
  rcases hdisj with ⟨hlt, htp⟩ | ⟨heq, htp2, _, hnofit⟩
  · have hpid : pid = 0 := by omega
    subst hpid
    refine ⟨recsOf', hrepr', hok, hdisk, hidx', hframe, ?_, hother, ?_, hdirty⟩
    · rw [hrecs', eraseKey_not_mem hkey_not]
    · rw [htp, htot]
  · exact absurd hfit0 (hnofit 0 (by omega))

theorem update_put_fails {s : Storage} {recsOf : Nat → List Rec}
    (h : StorageRepr s recsOf) {key value : List Nat} {pid : Nat}
    (hidx : indexLookup s.pageIndex key = some pid)
    (hnofit : ¬ 2 + recsSize (eraseKey (recsOf pid) key) +
      (4 + key.length + value.length) ≤ PageSize) :
    (s.Put key value).2 = .error "page full: not enough space for record" := by
  obtain ⟨recsOf', hrepr', _, _, _, hfail, _, hiffs⟩ := Put_spec h key value
  have hnotok : (s.Put key value).2 ≠ .ok () :=
    fun hok => hnofit ((hiffs pid hidx).mp hok)
  exact (hfail hnotok).1

/-- C3 (corrected): for reachable states, a `Get` or `Delete` that returns an
error leaves the state unchanged, and a failing `Put` always fails with the
page-full error and leaves the index unchanged; but a failing `Put` of an
EXISTING key leaves the key's page with the old record already deleted (the
claim's parenthetical is exactly what fails, see the counterexample), while a
failing `Put` of a new key leaves every page's records unchanged (though it may
have allocated a fresh empty page). -/
theorem error_state_preservation {s : Storage} (hreach : Reachable s)
    (key value : List Nat) :
    (∀ e, (s.Get key).2 = .error e → (s.Get key).1 = s) ∧
    (∀ e, (s.Delete key).2 = .error e → (s.Delete key).1 = s) ∧
    ((s.Put key value).2 ≠ .ok () →
      (s.Put key value).2 = .error "page full: not enough space for record" ∧
      (s.Put key value).1.pageIndex = s.pageIndex ∧
      ∃ recsOf recsOf', StorageRepr s recsOf ∧
        StorageRepr (s.Put key value).1 recsOf' ∧
        (indexLookup s.pageIndex key = none → ∀ id, recsOf' id = recsOf id) ∧
        (∀ pid, indexLookup s.pageIndex key = some pid →
          recsOf' pid = eraseKey (recsOf pid) key ∧
          ∀ id, id ≠ pid → recsOf' id = recsOf id)) := by
  obtain ⟨recsOf, h⟩ := reachable_repr hreach
  refine ⟨?_, ?_, ?_⟩
  · intro e herr
    rw [Get_spec h key]
  · intro e herr
    cases hidx : indexLookup s.pageIndex key with
    | none => rw [Delete_none hidx]
    | some pid =>
      by_cases hmem : key ∈ recsKeys (recsOf pid)
      · obtain ⟨hok, -, -, -⟩ := Delete_found h hidx hmem
        rw [hok] at herr
        exact absurd herr (by simp)
      · rw [Delete_stale h hidx hmem]
  · intro hne
    obtain ⟨recsOf', hrepr', _, _, _, hfail, _, _⟩ := Put_spec h key value
    obtain ⟨herr, hidxeq, hsome2, hnone2⟩ := hfail hne
    refine ⟨herr, hidxeq, recsOf, recsOf', h, hrepr', fun hn => (hnone2 hn).1, ?_⟩
    intro pid hp
    obtain ⟨h1, h2, -⟩ := hsome2 pid hp
    exact ⟨h1, h2⟩

/-- Witness for C3 on a fresh store with key `[1]` and value `[2]`. -/
theorem error_state_preservation_witness :
    Reachable Storage.init ∧
      ((∀ e, (Storage.init.Get [1]).2 = .error e → (Storage.init.Get [1]).1 =
          Storage.init) ∧
        (∀ e, (Storage.init.Delete [1]).2 = .error e → (Storage.init.Delete [1]).1 =
          Storage.init) ∧
        ((Storage.init.Put [1] [2]).2 ≠ .ok () →
          (Storage.init.Put [1] [2]).2 =
            .error "page full: not enough space for record" ∧
          (Storage.init.Put [1] [2]).1.pageIndex = Storage.init.pageIndex ∧
          ∃ recsOf recsOf', StorageRepr Storage.init recsOf ∧
            StorageRepr (Storage.init.Put [1] [2]).1 recsOf' ∧
            (indexLookup Storage.init.pageIndex [1] = none →
              ∀ id, recsOf' id = recsOf id) ∧
            (∀ pid, indexLookup Storage.init.pageIndex [1] = some pid →
              recsOf' pid = eraseKey (recsOf pid) [1] ∧
              ∀ id, id ≠ pid → recsOf' id = recsOf id))) :=
  ⟨⟨[], rfl⟩,
    error_state_preservation (show Reachable Storage.init from ⟨[], rfl⟩) [1] [2]⟩

/-- Counterexample to C3's verbatim claim: a `Put` of an existing key that fails
with the page-full error loses the key's old record. Here the store holds
`[1] ↦ replicate 4080 7`; the failing `Put [1] (replicate 4091 8)` returns the
page-full error, after which `Get [1]` no longer finds the record. -/
theorem put_page_full_loses_update :
    ∃ s : Storage, Reachable s ∧
      (s.Get [1]).2 = .ok (List.replicate 4080 7) ∧
      (s.Put [1] (List.replicate 4091 8)).2 =
        .error "page full: not enough space for record" ∧
      ((s.Put [1] (List.replicate 4091 8)).1.Get [1]).2 =
        .error "key not found in expected page" := by
  have hps : PageSize = 4096 := rfl
  have hfit1 : 2 + (4 + ([1] : List Nat).length +
      (List.replicate 4080 7 : List Nat).length) ≤ PageSize := by
    simp only [List.length_replicate, List.length_cons, List.length_nil]
    omega
  obtain ⟨recsOf1, hrepr1, hok1, hdisk1, hidx1, hfresh1, hrecs1, hother1, htot1,
    hpage1⟩ := first_put_spec [1] (List.replicate 4080 7) hfit1
  obtain ⟨recsOf2, hrepr2, hdisk2, hframe2, hsome2, hfail2, hiffn2, hiffs2⟩ :=
    Put_spec hrepr1 [1] (List.replicate 4091 8)
  have herase : eraseKey (recsOf1 0) [1] = [] := by
    rw [hrecs1, eraseKey_cons_self]
  have hnotok : ((Storage.init.Put [1] (List.replicate 4080 7)).1.Put [1]
      (List.replicate 4091 8)).2 ≠ .ok () := by
    intro hok
    have hle := (hiffs2 0 hidx1).mp hok
    rw [herase, show recsSize ([] : List Rec) = 0 from rfl,
      show ([1] : List Nat).length = 1 from rfl, List.length_replicate] at hle
    omega
  have hfl := hfail2 hnotok
  have herr2 := hfl.1
  have hidxeq2 := hfl.2.1
  have herase2' := (hfl.2.2.1 0 hidx1).1
  refine ⟨(Storage.init.Put [1] (List.replicate 4080 7)).1,
    ⟨[.put [1] (List.replicate 4080 7)], rfl⟩, ?_, herr2, ?_⟩
  · rw [Get_spec hrepr1 [1]]
    simp only [hidx1, hrecs1, searchRecs_self]
  · rw [Get_spec hrepr2 [1]]
    simp only [hidxeq2, hidx1, herase2', herase, searchRecs]

/-- C4 (corrected): for a key NOT yet present in the index, `Put` succeeds
exactly when the single serialized record fits one page's payload
(`4 + len(key) + len(value) ≤ pageSize - 2`), allocating a new page when no
existing page has room. The claim's extension to updates of existing keys is
false: see the counterexample, where an update whose record fits a fresh page
fails because it does not fit the key's current page. -/
theorem put_new_key_fits {s : Storage} (hreach : Reachable s) {key value : List Nat}
    (hnew : indexLookup s.pageIndex key = none) :
    ((s.Put key value).2 = .ok () ↔
      4 + key.length + value.length ≤ PageSize - 2) := by
  obtain ⟨recsOf, h⟩ := reachable_repr hreach
  obtain ⟨recsOf', hrepr', _, _, _, _, hiffn, _⟩ := Put_spec h key value
  have hps : PageSize = 4096 := rfl
  rw [hiffn hnew]
  omega

/-- Witness for C4 on a fresh store with key `[1]` and value `[2]`. -/
theorem put_new_key_fits_witness :
    Reachable Storage.init ∧ indexLookup Storage.init.pageIndex [1] = none ∧
      ((Storage.init.Put [1] [2]).2 = .ok () ↔
        4 + ([1] : List Nat).length + ([2] : List Nat).length ≤ PageSize - 2) :=
  ⟨⟨[], rfl⟩, rfl, put_new_key_fits ⟨[], rfl⟩ rfl⟩

/-- Counterexample to C4's verbatim claim: an update of an existing key whose
record easily fits a fresh page (`4 + 1 + 100 ≤ 4094`) still fails with the
page-full error, because the update must go to the key's current page, which
another record already fills. -/
theorem put_update_page_full :
    ∃ s : Storage, Reachable s ∧
      2 + (4 + ([2] : List Nat).length + (List.replicate 100 5 : List Nat).length)
        ≤ PageSize ∧
      (s.Put [2] (List.replicate 100 5)).2 =
        .error "page full: not enough space for record" := by
  have hps : PageSize = 4096 := rfl
  have hfit1 : 2 + (4 + ([1] : List Nat).length +
      (List.replicate 4000 7 : List Nat).length) ≤ PageSize := by
    simp only [List.length_replicate, List.length_cons, List.length_nil]
    omega
  obtain ⟨recsOf1, hrepr1, hok1, hdisk1, hidx1, hfresh1, hrecs1, hother1, htot1,
    hpage1⟩ := first_put_spec [1] (List.replicate 4000 7) hfit1
  have hidx12 : indexLookup (Storage.init.Put [1]
      (List.replicate 4000 7)).1.pageIndex [2] = none :=
    hfresh1 [2] (by decide)
  have hfit2 : 2 + recsSize (recsOf1 0) + (4 + ([2] : List Nat).length +
      (List.replicate 10 9 : List Nat).length) ≤ PageSize := by
    rw [hrecs1]
    simp only [recsSize, recSize, List.length_replicate, List.length_cons,
      List.length_nil]
    omega
  obtain ⟨recsOf2, hrepr2, hok2, hdisk2, hidx2, hframe2, hrecs2, hother2, htot2,
    hpage2⟩ := second_put_same_page hrepr1 hidx12 htot1 hfit2
  have herase2 : eraseKey (recsOf2 0) [2] = [([1], List.replicate 4000 7)] := by
    rw [hrecs2, hrecs1, List.cons_append, List.nil_append,
      eraseKey_cons_ne (by decide), eraseKey_cons_self]
  refine ⟨((Storage.init.Put [1] (List.replicate 4000 7)).1.Put [2]
      (List.replicate 10 9)).1,
    ⟨[.put [1] (List.replicate 4000 7), .put [2] (List.replicate 10 9)], rfl⟩,
    by simp only [List.length_replicate, List.length_cons, List.length_nil]; omega,
    ?_⟩
  apply update_put_fails hrepr2 hidx2
  rw [herase2]
  simp only [recsSize, recSize, List.length_replicate, List.length_cons,
    List.length_nil]
  omega

/-! ## The `buildIndex` bug (claim C2) -/

theorem cacheLookup_isSome_of_mem {l : List (Nat × Page)} {id : Nat}
    (hmem : id ∈ l.map Prod.fst) : (cacheLookup l id).isSome := by
  induction l with
  | nil => simp at hmem
  | cons kp rest ih =>
    obtain ⟨k, q⟩ := kp
    by_cases hk : k = id
    · simp [cacheLookup, hk]
    · simp only [List.map_cons, List.mem_cons] at hmem
      rcases hmem with hmem | hmem

      · exact absurd hmem.symm hk
      · simp only [cacheLookup, if_neg hk]
        exact ih hmem

theorem cache_singleton {l : List (Nat × Page)} {p : Page}
    (hnodup : (l.map Prod.fst).Nodup)
    (hdom : ∀ id, id < 1 ↔ (cacheLookup l id).isSome)
    (hp : cacheLookup l 0 = some p) : l = [(0, p)] := by
  cases l with
  | nil => simp [cacheLookup] at hp
  | cons kp rest =>
    obtain ⟨k, q⟩ := kp
    have hk0 : k = 0 := by
      have hsome : (cacheLookup ((k, q) :: rest) k).isSome := by
        simp [cacheLookup]
      have := (hdom k).mpr hsome
      omega
    subst hk0
    have hpq : q = p := by
      have hq : cacheLookup ((0, q) :: rest) 0 = some q := by
        simp [cacheLookup]
      rw [hq] at hp
      exact Option.some.inj hp
    rw [hpq]
    cases hr : rest with
    | nil => rfl
    | cons kp2 rest2 =>
      obtain ⟨k2, q2⟩ := kp2
      exfalso
      rw [hr] at hnodup
      simp only [List.map_cons, List.nodup_cons, List.mem_cons] at hnodup
      have hk2ne : k2 ≠ 0 := by
        intro hh
        exact hnodup.1 (Or.inl hh.symm)
      have hsome2 : (cacheLookup ((0, q) :: rest) k2).isSome := by
        have hstep : cacheLookup ((0, q) :: rest) k2 = cacheLookup rest k2 := by
          have hne : ¬ (0 : Nat) = k2 := by
            intro hh
            exact hk2ne hh.symm
          simp only [cacheLookup, if_neg hne]
        rw [hstep, hr]
        simp [cacheLookup]
      have := (hdom k2).mpr hsome2
      omega

/-- One iteration of the `buildIndex` record scan. The bug is visible in the
hypothesis: the stride uses the key length TWICE (`offset + 4 + kl + kl`),
because the source reads the value length from the key-length bytes. -/
theorem buildIndexPage_step {data : List Nat} {offset kl : Nat}
    (hku : getU16 data offset = kl)
    (h1 : ¬ offset + 4 > data.length)
    (h2 : ¬ offset + 4 + kl + kl > data.length)
    (pageID : Nat) (idx : List (List Nat × Nat)) (n : Nat) :
    buildIndexPage data pageID idx offset (n + 1) =
      buildIndexPage data pageID
        (indexInsert idx (readBytes data (offset + 4) kl) pageID)
        (offset + 4 + kl + kl) n := by
  simp only [buildIndexPage, hku, if_neg h1, if_neg h2]

theorem writePage_totalPages (s : Storage) (page : Page) :
    (s.writePage page).totalPages = s.totalPages := rfl

theorem writePage_nextPageID (s : Storage) (page : Page) :
    (s.writePage page).nextPageID = s.nextPageID := rfl

theorem writePage_disk_pages (s : Storage) (page : Page) :
    (s.writePage page).disk.pages =
      diskWritePage s.disk.pages page.ID
        (writeBytes page.Data 0 (putU16 page.RecordCount)) := rfl

theorem updateHeader_disk_header (s : Storage) :
    s.updateHeader.disk.header = encodeHeader s.totalPages s.nextPageID := rfl

theorem updateHeader_disk_pages (s : Storage) :
    s.updateHeader.disk.pages = s.disk.pages := rfl

theorem buildIndexLoop_one (s : Storage) (pageID : Nat) :
    s.buildIndexLoop pageID 1 =
      match s.loadPage pageID with
      | (_, .error _) => .error "failed to load page during index build"
      | (s1, .ok page) =>
        .ok { s1 with
            pageIndex := buildIndexPage page.Data pageID s1.pageIndex 2
              page.RecordCount } := rfl

/-- Reopening a one-page file whose page packs the records
`[([97,98],[99]), ([100],[101])]`: the index rebuild reads the first key
correctly, but the key-length-as-value-length bug makes it skip to offset 10
(instead of 9), fabricate a 256-byte junk key there, and never index `[100]`. -/
theorem reopen_bug_core {dk : DbFile} {d : List Nat}
    (hheader : dk.header = encodeHeader 1 1)
    (hpages : dk.pages = [d])
    (hdlen : d.length = 4096)
    (hg0 : getU16 d 0 = 2)
    (hrd : readBytes d 2 13 = [2, 0, 1, 0, 97, 98, 99, 1, 0, 1, 0, 100, 101]) :
    ∃ s', NewStorageExisting dk = .ok s' ∧
      (s'.Get [100]).2 = .error "key not found" := by
  have hku1 : getU16 d (2 + 0) = getU16 [2, 0, 1, 0, 97, 98, 99, 1, 0, 1, 0, 100, 101] 0 :=
    getU16_of_readBytes_eq hrd (by decide)
  have hku1' : getU16 d 2 = 2 := by
    have h2 : getU16 d 2 = getU16 [2, 0, 1, 0, 97, 98, 99, 1, 0, 1, 0, 100, 101] 0 :=
      hku1
    rw [h2]
    decide
  have hku2 : getU16 d (2 + 8) = getU16 [2, 0, 1, 0, 97, 98, 99, 1, 0, 1, 0, 100, 101] 8 :=
    getU16_of_readBytes_eq hrd (by decide)
  have hku2' : getU16 d (2 + 4 + 2 + 2) = 256 := by
    have h2 : getU16 d (2 + 4 + 2 + 2) =
        getU16 [2, 0, 1, 0, 97, 98, 99, 1, 0, 1, 0, 100, 101] 8 := hku2
    rw [h2]
    decide
  have hkey1 : readBytes d (2 + 4) 2 =
      readBytes [2, 0, 1, 0, 97, 98, 99, 1, 0, 1, 0, 100, 101] 4 2 :=
    readBytes_readBytes hrd (by decide)
  have hkey1' : readBytes d (2 + 4) 2 = [97, 98] := by
    rw [hkey1]
    decide
  have hstep1 : buildIndexPage d 0 [] 2 2 =
      buildIndexPage d 0 (indexInsert [] (readBytes d (2 + 4) 2) 0) (2 + 4 + 2 + 2) 1 :=
    buildIndexPage_step hku1' (by rw [hdlen]; omega) (by rw [hdlen]; omega) 0 [] 1
  have hstep2 : buildIndexPage d 0 (indexInsert [] [97, 98] 0) (2 + 4 + 2 + 2) 1 =
      buildIndexPage d 0
        (indexInsert (indexInsert [] [97, 98] 0)
          (readBytes d (2 + 4 + 2 + 2 + 4) 256) 0)
        (2 + 4 + 2 + 2 + 4 + 256 + 256) 0 :=
    buildIndexPage_step hku2' (by rw [hdlen]; omega) (by rw [hdlen]; omega) 0 _ 0
  have hb : buildIndexPage d 0 [] 2 2 =
      indexInsert (indexInsert [] [97, 98] 0) (readBytes d 14 256) 0 := by
    rw [hstep1, hkey1', hstep2]
    rw [show (2 + 4 + 2 + 2 + 4 : Nat) = 14 from rfl]
    rfl
  have hjl : (readBytes d 14 256).length = 256 := by
    rw [length_readBytes, hdlen]
    decide
  have hne1 : ¬ ([100] : List Nat) = readBytes d 14 256 := by
    intro hh
    rw [← hh] at hjl
    exact absurd hjl (by decide)
  have hlookup : indexLookup (buildIndexPage d 0 [] 2 2) [100] = none := by
    rw [hb, indexLookup_insert, if_neg hne1, indexLookup_insert,
      if_neg (by decide : ¬ ([100] : List Nat) = [97, 98])]
    rfl
  have hget0 : dk.pages.get? 0 = some d := by
    rw [hpages]
    rfl
  have hload : Storage.loadPage
      { disk := dk, pageIndex := [], pages := [], nextPageID := 1, totalPages := 1 } 0 =
      ({ disk := dk, pageIndex := [], pages := [(0, freshLoad 0 d)],
          nextPageID := 1, totalPages := 1 }, .ok (freshLoad 0 d)) := by
    simp only [Storage.loadPage, cacheLookup, hget0]
    rfl
  have hrc : (freshLoad 0 d).RecordCount = 2 := by
    show (if 2 ≤ d.length then getU16 d 0 else 0) = 2
    rw [if_pos (by rw [hdlen]; omega), hg0]
  have hloop : Storage.buildIndexLoop
      { disk := dk, pageIndex := [], pages := [], nextPageID := 1, totalPages := 1 }
      0 1 =
      .ok { disk := dk, pageIndex := buildIndexPage d 0 [] 2 2,
            pages := [(0, freshLoad 0 d)], nextPageID := 1, totalPages := 1 } := by
    simp only [buildIndexLoop_one, hload, hrc]
    rfl
  have hnse : NewStorageExisting dk = .ok
      { disk := dk, pageIndex := buildIndexPage d 0 [] 2 2,
        pages := [(0, freshLoad 0 d)], nextPageID := 1, totalPages := 1 } := by
    rw [NewStorageExisting, hheader]
    rw [if_neg (by decide), if_neg (by decide), if_neg (by decide), if_neg (by decide)]
    rw [show getU32 (encodeHeader 1 1) 16 = 1 from by decide,
      show getU32 (encodeHeader 1 1) 12 = 1 from by decide]
    rw [Storage.buildIndex]
    exact hloop
  refine ⟨_, hnse, ?_⟩
  simp only [Storage.Get, hlookup]

/-- Counterexample to C2: on a fresh store, `Put [97,98] [99]; Put [100] [101]`
both succeed and `Get [100]` returns `[101]`; after `Close` and a reopen of the
written file, `buildIndex` (whose record scan reads the value length from the
key-length bytes) fails to index `[100]`, and `Get [100]` errors. -/
theorem close_reopen_loses_key :
    ∃ (s s' : Storage), Reachable s ∧
      (s.Get [100]).2 = .ok [101] ∧
      NewStorageExisting s.Close.disk = .ok s' ∧
      (s'.Get [100]).2 = .error "key not found" := by
  have hfit1 : 2 + (4 + ([97, 98] : List Nat).length + ([99] : List Nat).length)
      ≤ PageSize := by decide
  obtain ⟨recsOf1, hrepr1, hok1, hdisk1, hidx1, hfresh1, hrecs1, hother1, htot1,
    hpage1⟩ := first_put_spec [97, 98] [99] hfit1
  have hidxk2 : indexLookup (Storage.init.Put [97, 98] [99]).1.pageIndex [100]
      = none := hfresh1 [100] (by decide)
  have hfit2 : 2 + recsSize (recsOf1 0) + (4 + ([100] : List Nat).length +
      ([101] : List Nat).length) ≤ PageSize := by
    rw [hrecs1]
    decide
  obtain ⟨recsOf2, hrepr2, hok2, hdisk2, hidx2, hframe2, hrecs2, hother2, htot2,
    hpage2⟩ := second_put_same_page hrepr1 hidxk2 htot1 hfit2
  have hrecsconc : recsOf2 0 = [([97, 98], [99]), ([100], [101])] := by
    rw [hrecs2, hrecs1]
    rfl
  obtain ⟨p, hpl, hpd⟩ := hpage2
  have hpw := hrepr2.pageWF 0 p hpl
  have hpwf := hpw.1
  have hpid : p.ID = 0 := hpw.2
  have hlenp : p.Data.length = 4096 := by
    have h := hpwf.1
    rw [h]
  have hcount2 : p.RecordCount = 2 := by
    have h := hpwf.2.1
    rw [h, hrecsconc]
    rfl
  have hra := hpwf.2.2
  rw [hrecsconc] at hra
  have hdom1 : ∀ id, id < 1 ↔ (cacheLookup
      ((Storage.init.Put [97, 98] [99]).1.Put [100] [101]).1.pages id).isSome := by
    intro id
    rw [← htot2]
    exact hrepr2.cacheDom id
  have hsingle : ((Storage.init.Put [97, 98] [99]).1.Put [100] [101]).1.pages
      = [(0, p)] := cache_singleton hrepr2.cacheNodup hdom1 hpl
  have hclose : ((Storage.init.Put [97, 98] [99]).1.Put [100] [101]).1.Close =
      (((Storage.init.Put [97, 98] [99]).1.Put [100] [101]).1.writePage p).updateHeader
      := by
    rw [Storage.Close, hsingle]
    simp only [Storage.flushLoop, hpd, if_true]
  have hdp2 : ((Storage.init.Put [97, 98] [99]).1.Put [100] [101]).1.disk.pages
      = [] := by
    rw [hdisk2, hdisk1]
    rfl
  have hnext2 : ((Storage.init.Put [97, 98] [99]).1.Put [100] [101]).1.nextPageID
      = 1 := by
    rw [hrepr2.meta, htot2]
  have hheaderC : ((Storage.init.Put [97, 98] [99]).1.Put [100] [101]).1.Close.disk.header
      = encodeHeader 1 1 := by
    rw [hclose, updateHeader_disk_header, writePage_totalPages, writePage_nextPageID,
      htot2, hnext2]
  have hpagesC : ((Storage.init.Put [97, 98] [99]).1.Put [100] [101]).1.Close.disk.pages
      = [writeBytes p.Data 0 (putU16 2)] := by
    rw [hclose, updateHeader_disk_pages, writePage_disk_pages, hdp2, hpid, hcount2]
    simp [diskWritePage]
  have hwb : 0 + (putU16 (2 : Nat)).length ≤ p.Data.length := by
    rw [hlenp]
    decide
  have hdlenD : (writeBytes p.Data 0 (putU16 2)).length = 4096 := by
    rw [length_writeBytes hwb]
    exact hlenp
  have hg0D : getU16 (writeBytes p.Data 0 (putU16 2)) 0 = 2 := by
    have hself : readBytes (writeBytes p.Data 0 (putU16 2)) 0 (putU16 (2 : Nat)).length
        = putU16 2 := readBytes_writeBytes_self hwb
    have hg := getU16_of_readBytes_eq hself
      (show 0 + 2 ≤ (putU16 (2 : Nat)).length by decide)
    have hg2 : getU16 (writeBytes p.Data 0 (putU16 2)) 0 = getU16 (putU16 2) 0 := hg
    rw [hg2]
    decide
  have hrdD : readBytes (writeBytes p.Data 0 (putU16 2)) 2 13
      = [2, 0, 1, 0, 97, 98, 99, 1, 0, 1, 0, 100, 101] := by
    rw [readBytes_writeBytes_right hwb (by decide)]
    exact hra.1
  obtain ⟨s', hnse, hget'⟩ := reopen_bug_core hheaderC hpagesC hdlenD hg0D hrdD
  refine ⟨((Storage.init.Put [97, 98] [99]).1.Put [100] [101]).1, s',
    ⟨[.put [97, 98] [99], .put [100] [101]], rfl⟩, ?_, hnse, hget'⟩
  rw [Get_spec hrepr2 [100]]
  simp only [hidx2, hrecsconc]
  simp [searchRecs]

/-! ## The write-ahead log bugs (claims C5 and C6) -/

/-- Counterexample to C5: one successful `Append` on a fresh WAL (it returns
LSN 1 and writes a 23-byte entry) is followed by a `ReadAll` that returns no
entries at all, because `Append` never assigns the entry's `EntrySize`, so the
serialized size field is zero and `ReadAll` deserializes an empty slice. -/
theorem wal_append_readAll_mismatch :
    (NewWAL.Append LogTypePut [97] [98]).2 = 1 ∧
      (NewWAL.Append LogTypePut [97] [98]).1.file.length = 23 ∧
      getU32 (NewWAL.Append LogTypePut [97] [98]).1.file 8 = 0 ∧
      (NewWAL.Append LogTypePut [97] [98]).1.ReadAll = [] := by
  refine ⟨rfl, by decide, by decide, by decide⟩

/-- Counterexample to C6: after one `Append` the WAL file is non-empty, yet the
`scanForLastLSN` loop never terminates on it: whatever the fuel, the scan makes
no progress, because the entry's serialized size field is zero and the offset
never advances. -/
theorem wal_scan_nonterminating :
    (NewWAL.Append LogTypePut [97] [98]).1.file ≠ [] ∧
      ∀ fuel lastLSN,
        scanLoop (NewWAL.Append LogTypePut [97] [98]).1.file 0 lastLSN fuel = none := by
  constructor
  · decide
  · intro fuel
    induction fuel with
    | zero =>
      intro lastLSN
      rfl
    | succ n ih =>
      intro lastLSN
      have h1 : 0 < (NewWAL.Append LogTypePut [97] [98]).1.file.length := by decide
      have h2 : ¬ 0 + 12 > (NewWAL.Append LogTypePut [97] [98]).1.file.length := by
        decide
      have h3 : getU32 (NewWAL.Append LogTypePut [97] [98]).1.file (0 + 8) = 0 := by
        decide
      rw [scanLoop, if_pos h1, if_neg h2, h3]
      exact ih _

/-- C10: `Get` is observationally read-only: the disk, the index and both
counters are unchanged and at most one clean copy of an on-disk page is added
to the cache; a second `Get` of the same key returns the same result from the
same state; and on any reachable state the state is unchanged outright, so no
later operation can be affected. -/
theorem Get_read_only (s : Storage) (key : List Nat) :
    CacheExtends s (s.Get key).1 ∧
      (s.Get key).1.Get key = s.Get key ∧
      (Reachable s → (s.Get key).1 = s) := by
  obtain ⟨hce, hgg⟩ := Get_frame_aux s key
  refine ⟨hce, hgg, ?_⟩
  intro hreach
  obtain ⟨recsOf, h⟩ := reachable_repr hreach
  rw [Get_spec h key]

end GoData
